import Mathlib

/-!
Verification of the SeeWasm symbolic-execution engine core against its
specification. The Python sources under eunomia/arch/wasm (emulator.py,
lib/wasi.py) are shallowly embedded below; parts of the repository that are
referenced but not shipped (the instructions package, lib/utils.py, the
configuration and solver facades) are modelled from the specification and
marked as such in their doc comments.
-/

set_option linter.unusedVariables false
set_option linter.unreachableTactic false
set_option linter.unnecessarySeqFocus false
set_option linter.unusedTactic false

namespace SeeWasm

/-- Symbolic value: shallow embedding of the z3 expressions the engine builds.
z3py manipulates untyped ExprRef handles; the bool-sorted ones are BoolRef. -/
inductive Expr where
  | bv (val : Int) (width : Nat)
  | var (name : String) (width : Nat)
  | boolTrue
  | boolFalse
  | eq (a b : Expr)
  | andB (a b : Expr)
  | ite (c t e : Expr)
  deriving DecidableEq

/-- Sort of a z3 expression: a bitvector sort of some width, or Bool. -/
inductive ESort where
  | bvS (w : Nat)
  | boolS
  deriving DecidableEq

def Expr.sortOf : Expr → ESort
  | .bv _ w => .bvS w
  | .var _ w => .bvS w
  | .boolTrue => .boolS
  | .boolFalse => .boolS
  | .eq _ _ => .boolS
  | .andB _ _ => .boolS
  | .ite _ t _ => t.sortOf

/-- Python isinstance(e, BoolRef): the expression is of Bool sort. -/
def Expr.isBoolRef (e : Expr) : Bool := e.sortOf == ESort.boolS

/-- z3 BitVecRef.size(); 0 for non-bitvector expressions (never queried on them). -/
def Expr.width : Expr → Nat
  | .bv _ w => w
  | .var _ w => w
  | .ite _ t _ => t.width
  | _ => 0

/-- Evaluation of an expression under an assignment of integers to symbol names.
Bitvector values are reduced modulo 2^width; bool-sorted expressions evaluate
to 1 (true) or 0 (false). -/
def Expr.evalI (sigma : String → Int) : Expr → Int
  | .bv v w => v % (2 ^ w)
  | .var n w => (sigma n) % (2 ^ w)
  | .boolTrue => 1
  | .boolFalse => 0
  | .eq a b => if a.evalI sigma = b.evalI sigma then 1 else 0
  | .andB a b => if a.evalI sigma ≠ 0 ∧ b.evalI sigma ≠ 0 then 1 else 0
  | .ite c t e => if c.evalI sigma ≠ 0 then t.evalI sigma else e.evalI sigma

/-- Entry of a VMState constraint list. z3py handlers append BoolRef
expressions, but plain Python booleans can land here too (a z3 comparison of
two concrete Python values returns a Python bool); this is what the cleanup
loop in emulate_one_instruction (emulator.py:304-306) tests for with
isinstance(c, BoolRef). -/
inductive PyCon where
  | expr (e : Expr)
  | pyBool (b : Bool)
  deriving DecidableEq

instance : Inhabited PyCon := ⟨.pyBool false⟩

def PyCon.isBoolRef : PyCon → Bool
  | .expr e => e.isBoolRef
  | .pyBool _ => false

/-- Truth of one constraint under an assignment. -/
def satisfiesCon (sigma : String → Int) : PyCon → Bool
  | .expr e => e.evalI sigma != 0
  | .pyBool b => b

/-- Truth of a whole constraint list (conjunction) under an assignment. -/
def satisfiesAll (sigma : String → Int) (cs : List PyCon) : Bool :=
  cs.all (satisfiesCon sigma)

/-- Member of state.args: a concrete command-line argument (Python str) or a
symbolic one (a z3 BitVec of the configured length). -/
inductive Arg where
  | str (s : String)
  | sym (name : String) (width : Nat)
  deriving DecidableEq

/-- Content field of a file-system record: raw bytes, a symbolic bitvector, or
an appendable Python list (as produced by fd_close / consumed by fd_write). -/
inductive FileContent where
  | bytes (bs : List Nat)
  | symbv (e : Expr)
  | pylist (l : List Expr)
  deriving DecidableEq

/-- One record of state.file_sys (spec §3 File system). -/
structure FileRec where
  name : String
  status : Bool
  flag : String
  content : FileContent
  deriving DecidableEq

/-- Modelled from the spec: §4.2 symbolic memory is an interval-keyed store and
_storeN (eunomia/arch/wasm/lib/utils.py, not under src/) writes a value as a new
interval entry for [addr, addr+nbytes). The memory is kept as the journal of
such writes, newest last; a Python int value v written over n bytes is recorded
as the bitvector constant bv v (8*n). -/
structure StoreEntry where
  addr : Int
  value : Expr
  nbytes : Nat
  deriving DecidableEq

/-- Abstract VM state: the fields of WasmVMstate that the verified properties
touch (the symbolic stack grows at the head). -/
structure VMState where
  symbolic_stack : List Expr
  symbolic_memory : List StoreEntry
  constraints : List PyCon
  file_sys : List (Int × FileRec)
  args : List Arg
  deriving DecidableEq

/-- Modelled from the spec: §4.2 store policy — append the new interval entry. -/
def storeN (s : VMState) (addr : Int) (v : Expr) (n : Nat) : VMState :=
  { s with symbolic_memory := s.symbolic_memory ++ [⟨addr, v, n⟩] }

/-- Little-endian byte k of a store entry holding a concrete bitvector value,
for the absolute address a inside the entry's interval. -/
def byteOfEntry (e : StoreEntry) (a : Int) : Option Int :=
  match e.value with
  | .bv v _ => some (((v % (2 ^ (8 * e.nbytes))) / 2 ^ (8 * (a - e.addr).toNat)) % 256)
  | _ => none

/-- Modelled from the spec: §4.2 invariant — the value observed at a byte
offset is the newest entry whose interval contains it; concrete values are
split into little-endian bytes. -/
def lookupByte (mem : List StoreEntry) (a : Int) : Option Int :=
  match mem.reverse.find? (fun e => decide (e.addr ≤ a) && decide (a < e.addr + e.nbytes)) with
  | some e => byteOfEntry e a
  | none => none

/-- Number of parameters declared by a param string such as "i32 i32": Python
param_str.split(' ') yields one token per separator plus one, so the length is
the number of spaces plus one (zero for the empty string). -/
def numParams (param_str : String) : Nat :=
  if param_str = "" then 0
  else (param_str.data.filter (fun c => c = ' ')).length + 1

/-- Modelled from the spec: §4.5 — a handler "extracts parameters from the
stack (in the order given by the function's param string)". _extract_params
(eunomia/arch/wasm/lib/utils.py, not under src/) pops one value per declared
parameter; the call sites in wasi.py bind the returned tuple top-of-stack
first. -/
def extractParams (param_str : String) (s : VMState) :
    Except String (List Expr × VMState) :=
  let k := numParams param_str
  if k ≤ s.symbolic_stack.length then
    .ok (s.symbolic_stack.take k, { s with symbolic_stack := s.symbolic_stack.drop k })
  else .error "IndexError: pop from empty stack"

/-- Concrete integer view of an extracted parameter: the wasi.py handlers use
these values in Python integer arithmetic, comparisons and dict indexing, which
requires them to be concrete. -/
def Expr.asInt : Expr → Except String Int
  | .bv v _ => .ok v
  | _ => .error "symbolic parameter where a concrete int is required"

/-- Modelled from the spec: str_to_little_endian_int (eunomia/arch/wasm/utils.py,
not under src/) — the integer whose little-endian byte encoding is the string. -/
def strToLittleEndianInt (s : String) : Int :=
  s.data.reverse.foldl (fun acc c => acc * 256 + (c.toNat : Int)) 0

/-- Python source wasi.py:37 — one element of [i == 0 for i in args_list].
Comparing a Python str with 0 yields the Python bool False, which z3.And
coerces to BoolVal(False); a symbolic argument yields the equation arg == 0. -/
def argEqZero : Arg → Expr
  | .str _ => .boolFalse
  | .sym n w => .eq (.var n w) (.bv 0 w)

/-- z3's n-ary And over a list, modelled as a fold of binary conjunction. -/
def andAll (l : List Expr) : Expr := l.foldr Expr.andB .boolTrue

/-- _iterate_sym_args from args_sizes_get (wasi.py:34-40); total is
len(state.args), the list argument starts as state.args[1:]. -/
def iterateSymArgs (total : Nat) : List Arg → Expr
  | [] => .bv total 32
  | a :: rest =>
      .ite (andAll ((a :: rest).map argEqZero))
        (.bv ((total : Int) - (((a :: rest).length : Nat) : Int)) 32)
        (iterateSymArgs total rest)

/-- Byte contribution of one argv entry in args_sizes_get (wasi.py:46-52):
a str contributes len+1 (the +1 is the NUL terminator), a bitvector
contributes width/8 + 1. -/
def argSizeBytes : Arg → Nat
  | .str s => s.length + 1
  | .sym _ w => w / 8 + 1

/-- Total argv buffer size accumulated by args_sizes_get (wasi.py:46-52). -/
def argvBufSize (args : List Arg) : Nat := (args.map argSizeBytes).sum

/-- fd_read's drained-input test (wasi.py:213): the content is an empty byte
string, or a symbolic bitvector narrower than 8 bits. -/
def FileContent.isDrained : FileContent → Bool
  | .bytes bs => bs.isEmpty
  | .symbv e => e.width < 8
  | .pylist _ => false

/-- Python dict read state.file_sys[fd]. -/
def lookupFd (fs : List (Int × FileRec)) (fd : Int) : Option FileRec :=
  (fs.find? (fun p => p.1 == fd)).map Prod.snd

/-- Python dict write state.file_sys[fd] = r for an existing key fd. -/
def setFd (fs : List (Int × FileRec)) (fd : Int) (r : FileRec) :
    List (Int × FileRec) :=
  fs.map (fun p => if p.1 == fd then (p.1, r) else p)

/-- Static data section of the engine: intervals (offset, offset+size) mapped
to raw bytes (emulator.py:66-75). The modelled wasi.py branches do not read it. -/
def DataSection : Type := List ((Int × Int) × List Nat)

/-- WASIImportFunction.emul (wasi.py:26-414), branch by branch in source
order. The general copy loops of fd_read and fd_write and the args_get body,
which no verified property depends on, stop with a distinct error marker
instead of being modelled; every other branch is translated in full. The
final else branch of the source logs errors and calls exit(), aborting the
whole process, which is modelled as an error result. -/
def wasiEmul (name : String) (s : VMState) (param_str return_str : String)
    (data_section : DataSection) : Except String VMState :=
  if name = "args_sizes_get" then do
    let (ps, s) ← extractParams param_str s
    match ps with
    | [argBufSizeAddrE, argcAddrE] => do
      let arg_buf_size_addr ← argBufSizeAddrE.asInt
      let argc_addr ← argcAddrE.asInt
      let argc := iterateSymArgs s.args.length (s.args.drop 1)
      let s := storeN s argc_addr argc 4
      let argv_len : Nat := argvBufSize s.args
      let s := storeN s arg_buf_size_addr (.bv argv_len 32) 4
      .ok { s with symbolic_stack := .bv 0 32 :: s.symbolic_stack }
    | _ => .error "args_sizes_get: arity mismatch"
  else if name = "args_get" then
    .error "args_get: body not modelled"
  else if name = "environ_sizes_get" then do
    let (ps, s) ← extractParams param_str s
    match ps with
    | [envBufSizeAddrE, envCountAddrE] => do
      let env_buf_size_addr ← envBufSizeAddrE.asInt
      let env_count_addr ← envCountAddrE.asInt
      let s := storeN s env_count_addr (.bv 0 32) 4
      let s := storeN s env_buf_size_addr (.bv 0 32) 4
      .ok { s with symbolic_stack := .bv 0 32 :: s.symbolic_stack }
    | _ => .error "environ_sizes_get: arity mismatch"
  else if name = "fd_advise" then do
    let (ps, s) ← extractParams param_str s
    match ps with
    | [_, _, _, _] =>
      .ok { s with symbolic_stack := .bv 0 32 :: s.symbolic_stack }
    | _ => .error "fd_advise: arity mismatch"
  else if name = "fd_fdstat_get" then do
    let (ps, s) ← extractParams param_str s
    match ps with
    | [fdStatAddrE, fdE] => do
      let fd_stat_addr ← fdStatAddrE.asInt
      -- fs_filetype concretized as 2 (wasi.py:122-123), then an align byte
      let s := storeN s fd_stat_addr (.bv 2 8) 1
      let s := storeN s (fd_stat_addr + 1) (.bv 0 8) 1
      -- fs_flags concretized as 0 (wasi.py:138-139), then 4 align bytes
      let s := storeN s (fd_stat_addr + 2) (.bv 0 16) 2
      let s := storeN s (fd_stat_addr + 4) (.bv 0 32) 4
      -- fs_rights_base and fs_rights_inheriting, 8 zero bytes each
      let s := storeN s (fd_stat_addr + 8) (.bv 0 64) 8
      let s := storeN s (fd_stat_addr + 16) (.bv 0 64) 8
      .ok { s with symbolic_stack := .bv 0 32 :: s.symbolic_stack }
    | _ => .error "fd_fdstat_get: arity mismatch"
  else if name = "fd_tell" then do
    let (ps, s) ← extractParams param_str s
    match ps with
    | [offsetAddrE, fdE] => do
      let offset_addr ← offsetAddrE.asInt
      -- the source names the fresh symbol with a wall-clock timestamp suffix
      let s := storeN s offset_addr (.var "fd_tell_timestamp" 32) 4
      .ok { s with symbolic_stack := .bv 0 32 :: s.symbolic_stack }
    | _ => .error "fd_tell: arity mismatch"
  else if name = "fd_seek" then do
    let (ps, s) ← extractParams param_str s
    match ps with
    | [newOffsetAddrE, _, _, _] => do
      let new_offset_addr ← newOffsetAddrE.asInt
      -- the source names the fresh symbol with a wall-clock timestamp suffix
      let s := storeN s new_offset_addr (.var "fd_seek_timestamp" 32) 4
      .ok { s with symbolic_stack := .bv 0 32 :: s.symbolic_stack }
    | _ => .error "fd_seek: arity mismatch"
  else if name = "fd_close" then do
    let (ps, s) ← extractParams param_str s
    match ps with
    | [fdE] => do
      let fd ← fdE.asInt
      match lookupFd s.file_sys fd with
      | none => .error "KeyError: fd not in file_sys"
      | some _ =>
        let s := { s with file_sys := setFd s.file_sys fd ⟨"", false, "", .pylist []⟩ }
        .ok { s with symbolic_stack := .bv 0 32 :: s.symbolic_stack }
    | _ => .error "fd_close: arity mismatch"
  else if name = "fd_read" then do
    let (ps, s) ← extractParams param_str s
    match ps with
    | [numBytesReadAddrE, numIovsE, iovsAddrE, fdE] => do
      let fd ← fdE.asInt
      match lookupFd s.file_sys fd with
      | none => .error "exit: fd not in file_sys, please give more sym files"
      | some r =>
        if r.status = false then
          .error "AssertionError: fd is not opened yet"
        else if r.content.isDrained then do
          let num_bytes_read_addr ← numBytesReadAddrE.asInt
          let s := storeN s num_bytes_read_addr (.bv 0 32) 4
          .ok { s with symbolic_stack := .bv 0 32 :: s.symbolic_stack }
        else
          .error "fd_read: general read loop not modelled"
    | _ => .error "fd_read: arity mismatch"
  else if name = "fd_write" then do
    let (ps, s) ← extractParams param_str s
    match ps with
    | [numBytesWrittenAddrE, numIovsE, iovsAddrE, fdE] => do
      let fd ← fdE.asInt
      match lookupFd s.file_sys fd with
      | none => .error "AssertionError: fd not in file_sys"
      | some r =>
        if r.status = false then
          .error "AssertionError: fd is not opened yet"
        else if !r.flag.contains 'w' then
          .error "AssertionError: fd mode cannot be written"
        else
          match r.content with
          | .pylist _ => .error "fd_write: general write loop not modelled"
          | _ => .error "AssertionError: fd content is not a list"
    | _ => .error "fd_write: arity mismatch"
  else if name = "proc_exit" then do
    let (ps, s) ← extractParams param_str s
    match ps with
    | [return_val] =>
      .ok { s with constraints :=
        s.constraints ++ [.expr (.eq (.var "proc_exit" 32) return_val)] }
    | _ => .error "proc_exit: arity mismatch"
  else if name = "fd_prestat_get" then do
    let (ps, s) ← extractParams param_str s
    match ps with
    | [prestatAddrE, fdE] => do
      let fd ← fdE.asInt
      if fd ≥ 5 then
        .ok { s with symbolic_stack := .bv 8 32 :: s.symbolic_stack }
      else do
        let prestat_addr ← prestatAddrE.asInt
        -- first byte is __WASI_PREOPENTYPE_DIR (0), three align bytes
        let s := storeN s prestat_addr (.bv 0 32) 4
        -- length of the modelled path, len('a.txt') = 5, in 4 bytes
        let s := storeN s (prestat_addr + 4) (.bv 5 32) 4
        .ok { s with symbolic_stack := .bv 0 32 :: s.symbolic_stack }
    | _ => .error "fd_prestat_get: arity mismatch"
  else if name = "fd_prestat_dir_name" then do
    let (ps, s) ← extractParams param_str s
    match ps with
    | [bufferLenE, bufferAddrE, fdE] => do
      let buffer_len ← bufferLenE.asInt
      let buffer_addr ← bufferAddrE.asInt
      let s := storeN s buffer_addr
        (.bv (strToLittleEndianInt "a.txt") (8 * buffer_len.toNat)) buffer_len.toNat
      .ok { s with symbolic_stack := .bv 0 32 :: s.symbolic_stack }
    | _ => .error "fd_prestat_dir_name: arity mismatch"
  else if name = "path_open" then do
    let (ps, s) ← extractParams param_str s
    match ps with
    | [fdAddrE, _, _, _, _, _, _, _, dirFdE] => do
      let fd_addr ← fdAddrE.asInt
      let s := storeN s fd_addr dirFdE 4
      .ok { s with symbolic_stack := .bv 0 32 :: s.symbolic_stack }
    | _ => .error "path_open: arity mismatch"
  else
    .error "exit: unknown import function"

/-- Removal of the first occurrence of an element, Python list.remove. -/
def removeFirst (l : List PyCon) (c : PyCon) : List PyCon :=
  match l with
  | [] => []
  | x :: rest => if x = c then rest else x :: removeFirst rest c

/-- Python cleanup loop of emulate_one_instruction (emulator.py:304-306):
for c in state.constraints: if not isinstance(c, BoolRef):
state.constraints.remove(c). CPython iterates the list by index, so removing
the current element shifts the rest left and the loop skips the element that
follows it; list.remove deletes the first occurrence. The loop runs while the
index is below the current length; the index grows by one per iteration and
the list never grows, so an iteration budget of the initial length is exact
(the fuel parameter of pyFilterGo never runs out before the loop ends). -/
def pyFilterGo : Nat → List PyCon → Nat → List PyCon
  | 0, l, _ => l
  | fuel + 1, l, i =>
    match l.get? i with
    | none => l
    | some c =>
      if c.isBoolRef then pyFilterGo fuel l (i + 1)
      else pyFilterGo fuel (removeFirst l c) (i + 1)

/-- Entry point of the cleanup loop of emulator.py:304-306. -/
def pyFilterLoop (l : List PyCon) (i : Nat) : List PyCon :=
  pyFilterGo l.length l i

/-- Constraint-cleanup phase of emulate_one_instruction (emulator.py:304-306). -/
def filterNonBoolConstraints (s : VMState) : VMState :=
  { s with constraints := pyFilterLoop s.constraints 0 }

/-- emulate_one_instruction (emulator.py:271-328): the constraint cleanup loop
runs first, then the per-group instruction handler produces the successor
states. Modelled from the spec: the instructions package is not under src/, so
the handler is a parameter (§4.3 lists the per-group contracts). -/
def emulateOneInstruction (handler : VMState → List VMState) (s : VMState) :
    List VMState :=
  handler (filterNonBoolConstraints s)

/-- Modelled from the spec: §4.3 Constant group — "push a fresh bitvector or
float constant of the declared width and value"; a concrete spec-conforming
handler used to instantiate emulateOneInstruction. -/
def constantHandler (v : Int) (w : Nat) (s : VMState) : List VMState :=
  [{ s with symbolic_stack := .bv v w :: s.symbolic_stack }]

/-- Loop body of init_globals (emulator.py:213-223) for one (index, item) pair
of enumerate(self.ana.globals): an i32 global becomes BitVecVal(val, 32) when
is_exported and the fresh symbol BitVec('global_i_i32', 32) otherwise, an i64
global likewise at width 64, and any other type raises
UnsupportGlobalTypeError. -/
def initGlobalItem (is_exported : Bool) (p : Nat × (String × Int)) :
    Except String Expr :=
  if p.2.1 = "i32" then
    .ok (if is_exported then .bv p.2.2 32
         else .var ("global_" ++ toString p.1 ++ "_i32") 32)
  else if p.2.1 = "i64" then
    .ok (if is_exported then .bv p.2.2 64
         else .var ("global_" ++ toString p.1 ++ "_i64") 64)
  else .error "UnsupportGlobalTypeError"

/-- init_globals (emulator.py:212-223): the enumerate loop over the module's
global section. -/
def initGlobals (globalsSec : List (String × Int)) (is_exported : Bool) :
    Except String (List Expr) :=
  globalsSec.enum.mapM (initGlobalItem is_exported)

/-- Globals fragment of init_state (emulator.py:244-250): the entry function
being exported, or the --concrete_globals switch, selects concrete
initialization. -/
def initStateGlobals (exported_func_names : List String)
    (concrete_globals : Bool) (func_name : String)
    (globalsSec : List (String × Int)) : Except String (List Expr) :=
  let is_exported := exported_func_names.contains func_name
  let is_exported := if concrete_globals then true else is_exported
  initGlobals globalsSec is_exported

/-- Terminal/status record the reporter derives for one terminal state. -/
structure ReportRecord where
  terminal : Bool
  statusLine : String
  deriving DecidableEq

/-- Modelled from the spec: §4.5 "proc_exit(code) — add exit_code == code to
constraints and mark state terminal" and §8 "A terminal state produced by
proc_exit(k) reports Status == 'Exit with status code k' after solving". The
driver and reporter are not under src/; they treat the state as terminal and
print the status line from the solved model's value of the exit-code symbol. -/
def procExitReport (sigma : String → Int) : ReportRecord :=
  ⟨true, "Exit with status code " ++ toString (Expr.evalI sigma (.var "proc_exit" 32))⟩


/-! Concrete states used by witnesses and counterexamples. -/

/-- State used to witness fd_read_drained: stdin (fd 0) is open with empty
content; the stack holds the four fd_read parameters. -/
def stW10 : VMState :=
  ⟨[.bv 300 32, .bv 1 32, .bv 400 32, .bv 0 32], [], [],
   [(0, ⟨"stdin", true, "r", .bytes []⟩)], []⟩

/-- State used to witness proc_exit_constraint_and_status: exit code 1 on the
stack. -/
def stW3 : VMState := ⟨[.bv 1 32], [], [], [], []⟩

/-- Assignment solving the constraints of the witness proc_exit state. -/
def sigW3 : String → Int := fun n => if n = "proc_exit" then 1 else 0

/-- Stack for the BADF part of the fd_prestat witness (fd 7). -/
def stW7a : VMState := ⟨[.bv 200 32, .bv 7 32], [], [], [], []⟩

/-- Stack for the modelled-descriptor part of the fd_prestat witness (fd 3). -/
def stW7b : VMState := ⟨[.bv 200 32, .bv 3 32], [], [], [], []⟩

/-- Stack for the fd_prestat_dir_name part of the witness. -/
def stW7c : VMState := ⟨[.bv 5 32, .bv 300 32, .bv 3 32], [], [], [], []⟩

/-- State used to witness fd_fdstat_get_minimal_record. -/
def stW9 : VMState := ⟨[.bv 100 32, .bv 3 32], [], [], [], []⟩

/-- C1 counterexample state: one non-BoolRef constraint entry. -/
def stC1 : VMState := ⟨[], [], [.pyBool true], [], []⟩

/-- State used to witness the amended C1 theorem: a single BoolRef constraint. -/
def stW1 : VMState := ⟨[], [], [.expr .boolTrue], [], []⟩

/-- C4 counterexample state: argv is a concrete program name and one symbolic
8-bit argument; argc_addr is 8, arg_buf_size_addr is 12. -/
def stC4 : VMState :=
  ⟨[.bv 12 32, .bv 8 32], [], [], [], [.str "p", .sym "sym_arg_1" 8]⟩

/-- Result state of args_sizes_get on stC4. -/
def stC4res : VMState :=
  ⟨[.bv 0 32],
   [⟨8, iterateSymArgs 2 [.sym "sym_arg_1" 8], 4⟩, ⟨12, .bv 4 32, 4⟩],
   [], [], [.str "p", .sym "sym_arg_1" 8]⟩

/-- Assignment under which the symbolic argument of stC4 is zero. -/
def sigZero : String → Int := fun _ => 0

/-- State used to witness the amended C4 theorem: fully concrete argv. -/
def stW4 : VMState := ⟨[.bv 12 32, .bv 8 32], [], [], [], [.str "prog", .str "a"]⟩

/-- Global section used to witness the C5 theorem. -/
def glW5 : List (String × Int) := [("i32", 7), ("i64", 9)]

/-! Coverage tracking (emulator.py:330-398). -/

/-- Wasm instruction object: the fields the embedded code reads. nature_offset
is the instruction's index within its function. -/
structure Instruction where
  name : String
  offset : Nat
  offset_end : Nat
  nature_offset : Nat
  deriving DecidableEq

instance : Inhabited Instruction := ⟨⟨"", 0, 0, 0⟩⟩

/-- Python dict read d.get(k) for string-keyed dicts, modelled as
insertion-ordered association lists. -/
def lookupA {α : Type} : List (String × α) → String → Option α
  | [], _ => none
  | p :: rest, k => if p.1 = k then some p.2 else lookupA rest k

/-- Python membership test k in d. -/
def containsA {α : Type} (l : List (String × α)) (k : String) : Bool :=
  (lookupA l k).isSome

/-- Python dict assignment d[k] = v: replace in place when the key is present,
append otherwise. -/
def setA {α : Type} (l : List (String × α)) (k : String) (v : α) :
    List (String × α) :=
  if containsA l k then l.map (fun p => if p.1 = k then (k, v) else p)
  else l ++ [(k, v)]

/-- The two per-function coverage maps of the engine (emulator.py:77-79):
instruction_coverage_bitmap maps a function name to its visited bitmap and
instruction_coverage maps it to the pair (visited count, instruction count). -/
structure CoverageState where
  bitmap : List (String × List Bool)
  coverage : List (String × (Nat × Nat))
  deriving DecidableEq

/-- init_coverage_bitmap (emulator.py:330-338): when the function has no
bitmap yet, allocate an all-False bitmap of the function's instruction count
(looked up in concerned_funcs; both call sites assert membership first, so the
getD default is never taken on verified paths) and the counter pair (0, count). -/
def initCoverageBitmap (concerned : List (String × Nat)) (cs : CoverageState)
    (f : String) : CoverageState :=
  if containsA cs.bitmap f then cs
  else
    let n := (lookupA concerned f).getD 0
    ⟨setA cs.bitmap f (List.replicate n false), setA cs.coverage f (0, n)⟩

/-- Python set.add on the visited set, modelled as an insertion-ordered list. -/
def setInsert (visited : List String) (x : String) : List String :=
  if x ∈ visited then visited else visited ++ [x]

/-- Queue loop of the C-library branch of calculate_coverage
(emulator.py:348-358). The source reads the callee set of func_name — not of
the dequeued element — on every iteration, so the loop explores exactly
func_name and its direct callees. One iteration pops an element, adds it to
the visited set, and enqueues every callee not yet visited. -/
def bfsGo (callees : List String) : Nat → List String → List String → List String
  | 0, _, visited => visited
  | fuel + 1, queue, visited =>
    match queue with
    | [] => visited
    | ele :: rest =>
      let visited' := setInsert visited ele
      let pushes := callees.filter (fun c => decide (c ∉ visited'))
      bfsGo callees fuel (rest ++ pushes) visited'

/-- Entry of the queue loop. The deterministic FIFO loop finishes within
(k+1)(k+2) iterations for k = |callees|: an element is popped unvisited at
most k+1 times (the k-th such pop leaves at most k pushed copies per round to
drain), and popping an already-visited copy enqueues only still-unvisited
elements; empirically the loop takes k(k+1)/2 + 1 iterations, so this fuel
never runs out. -/
def bfsVisited (cg : List (String × List String)) (fname : String) :
    List String :=
  let callees := (lookupA cg fname).getD []
  bfsGo callees ((callees.length + 1) * (callees.length + 2)) [fname] []

/-- One callee update of the C-library branch of calculate_coverage
(emulator.py:360-368): assert the callee is in concerned_funcs, make sure its
maps exist, set every bitmap bit to True and the visited counter to the count
of True bits. -/
def coverLibCallee (concerned : List (String × Nat)) (cs : CoverageState)
    (callee : String) : Except String CoverageState :=
  if containsA concerned callee = false then
    .error "AssertionError: callee is not covered by coverage calculation"
  else
    let cs1 := initCoverageBitmap concerned cs callee
    let bm := (lookupA cs1.bitmap callee).getD []
    let bm2 := bm.map (fun _ => true)
    let oldcov := (lookupA cs1.coverage callee).getD (0, 0)
    .ok ⟨setA cs1.bitmap callee bm2,
         setA cs1.coverage callee (bm2.count true, oldcov.2)⟩

/-- Non-library branch of calculate_coverage (emulator.py:369-374): set the
bit at the instruction's nature_offset (a Python IndexError aborts the run
when the offset is out of range) and refresh the visited counter. -/
def coverOwnInstr (cs : CoverageState) (fname : String) (offset : Nat) :
    Except String CoverageState :=
  let bm := (lookupA cs.bitmap fname).getD []
  if offset < bm.length then
    let bm2 := bm.set offset true
    let oldcov := (lookupA cs.coverage fname).getD (0, 0)
    .ok ⟨setA cs.bitmap fname bm2,
         setA cs.coverage fname (bm2.count true, oldcov.2)⟩
  else .error "IndexError: nature_offset out of range"

/-- calculate_coverage (emulator.py:340-398). C_LIBRARY_FUNCS lives in the
instructions package (not under src/) and is a parameter; the wall-clock-gated
log-file output at the end of the source function changes no engine state and
is not modelled. -/
def calculateCoverage (clib : List String) (cg : List (String × List String))
    (concerned : List (String × Nat)) (cs : CoverageState)
    (instr : Instruction) (func_name : String) : Except String CoverageState :=
  if containsA concerned func_name = false then
    .error "AssertionError: func is not covered by coverage calculation"
  else
    let cs1 := initCoverageBitmap concerned cs func_name
    if func_name ∈ clib then
      (bfsVisited cg func_name).foldlM (coverLibCallee concerned) cs1
    else
      coverOwnInstr cs1 func_name instr.nature_offset

/-- Well-formedness of the coverage maps, maintained across calls: both maps
have duplicate-free keys, cover the same functions, and the visited counter of
every function equals the number of True bits of its bitmap. -/
def CovWF (cs : CoverageState) : Prop :=
  (cs.bitmap.map Prod.fst).Nodup ∧
  (cs.coverage.map Prod.fst).Nodup ∧
  (∀ f, containsA cs.bitmap f = containsA cs.coverage f) ∧
  (∀ f bm cv, lookupA cs.bitmap f = some bm → lookupA cs.coverage f = some cv →
    cv.1 = bm.count true)

/-- Pointwise bitmap monotonicity between two coverage states: every function
keeps a bitmap of the same length whose True bits survive. -/
def BitmapMono (cs cs' : CoverageState) : Prop :=
  ∀ f bm, lookupA cs.bitmap f = some bm →
    ∃ bm', lookupA cs'.bitmap f = some bm' ∧ bm'.length = bm.length ∧
      (∀ j, bm.getD j false = true → bm'.getD j false = true)

/-- The global visited-instruction count: sum of the first components of
instruction_coverage (emulator.py:377-379). -/
def globalCount (cs : CoverageState) : Nat :=
  (cs.coverage.map (fun p => p.2.1)).sum

/-- Pre-state of the coverage witness: nothing visited yet. -/
def csW8 : CoverageState := ⟨[], []⟩

/-- Post-state of the coverage witness: main's second instruction visited. -/
def csW8res : CoverageState :=
  ⟨[("main", [false, true, false])], [("main", (1, 3))]⟩

/-! CFG refinement: split_bbs (emulator.py:88-148). -/

/-- Basic block record (spec §3): name, offsets, first/last instruction and
the instruction list. -/
structure WBasicBlock where
  name : String
  start_offset : Nat
  end_offset : Nat
  start_instr : Instruction
  end_instr : Instruction
  instructions : List Instruction
  deriving DecidableEq

instance : Inhabited WBasicBlock := ⟨⟨"", 0, 0, default, default, []⟩⟩

/-- CFG edge record: source block name, target block name, edge kind. -/
structure WEdge where
  node_from : String
  node_to : String
  edgeType : String
  deriving DecidableEq

/-- Lowercase hexadecimal digit character, as produced by Python's hex(). -/
def hexChar (n : Nat) : Char :=
  Char.ofNat (if n < 10 then 48 + n else 87 + n)

/-- Python hex(n)[2:] for a non-negative n: lowercase hex digits without the
0x marker; hex(0)[2:] is "0". -/
def hexStr (n : Nat) : String :=
  if n = 0 then "0" else ⟨(Nat.digits 16 n).reverse.map hexChar⟩

/-- Block naming scheme of the engine, emulator.py:119:
f"block_{func_index}_{hex(start_offset)[2:]}". The raw CFG builder names its
blocks the same way (split_bbs parses func_index back out of bb.name at
emulator.py:101). -/
def mkBlockName (fidx : String) (off : Nat) : String :=
  "block_" ++ fidx ++ "_" ++ hexStr off

/-- The two instruction names split_bbs splits after (emulator.py:104). -/
def isCallIns (x : Instruction) : Bool :=
  x.name == "call" || x.name == "call_indirect"

/-- Scan of enumerate(bb.instructions) in split_bbs (emulator.py:102-104):
the first index holding a call or call_indirect that is not the last
instruction; i is the index of the list head, len the full list length. -/
def findSplitIdxAux (len : Nat) : List Instruction → Nat → Option Nat
  | [], _ => none
  | x :: rest, i =>
    if isCallIns x = true ∧ i ≠ len - 1 then some i
    else findSplitIdxAux len rest (i + 1)

/-- Index at which split_bbs splits a block, if any (emulator.py:102-104). -/
def findSplitIdx (l : List Instruction) : Option Nat :=
  findSplitIdxAux l.length l 0

/-- Total instruction count of a block list. -/
def sumInstr (bbs : List WBasicBlock) : Nat :=
  (bbs.map (fun b => b.instructions.length)).sum

/-- First part of a split block (emulator.py:109-112): the block keeps its
name and start, now ends at the call instruction at index k and holds the
instructions up to and including it. -/
def splitFirstPart (bb : WBasicBlock) (k : Nat) : WBasicBlock :=
  { bb with end_offset := (bb.instructions.getD k default).offset_end, end_instr := bb.instructions.getD k default, instructions := bb.instructions.take (k + 1) }

/-- Second part of a split block (emulator.py:114-121): a new block named
after its start offset, holding the instructions after the call. -/
def splitSecondPart (fidx : String) (bb : WBasicBlock) (k : Nat) : WBasicBlock :=
  ⟨mkBlockName fidx ((bb.instructions.drop (k + 1)).headD default).offset,
   ((bb.instructions.drop (k + 1)).headD default).offset,
   ((bb.instructions.drop (k + 1)).getLastD default).offset_end,
   (bb.instructions.drop (k + 1)).headD default,
   (bb.instructions.drop (k + 1)).getLastD default,
   bb.instructions.drop (k + 1)⟩

/-- The while loop of split_bbs (emulator.py:97-135) for one function, with
func_index fixed (every block name of a function carries the same index).
Position i walks the growing block list. A block with an interior call is cut
after the call: the block keeps its name and the first part, a new block named
after the second part's start offset receives the rest, edges leaving the old
block are re-pointed to leave the new block, and a fallthrough edge connects
the parts; the new block is appended and processed later. One iteration either
advances i past an unsplittable block or removes at least one instruction from
the part of the list at positions >= i, so the iteration count is bounded by
the total instruction count plus the block count; the fuel passed by split_bbs
therefore never runs out. -/
def splitGo (fidx : String) :
    Nat → List WBasicBlock → List WEdge → Nat → List WBasicBlock × List WEdge
  | 0, bbs, edges, _ => (bbs, edges)
  | fuel + 1, bbs, edges, i =>
    match bbs.get? i with
    | none => (bbs, edges)
    | some bb =>
      match findSplitIdx bb.instructions with
      | none => splitGo fidx fuel bbs edges (i + 1)
      | some k =>
        splitGo fidx fuel
          ((bbs.set i (splitFirstPart bb k)) ++ [splitSecondPart fidx bb k])
          ((edges.map (fun e =>
              if e.node_from = bb.name then { e with node_from := (splitSecondPart fidx bb k).name } else e)) ++
            [⟨bb.name, (splitSecondPart fidx bb k).name, "fallthrough"⟩]) (i + 1)

/-- split_bbs (emulator.py:88-148) for one function: run the splitting loop
from position 0, then sort the blocks as the source does with
sorted(func_basic_blocks, key=lambda x: int(x.name.split('_')[2], 16)) — under
the block-naming scheme, the parsed key is exactly the block's start offset. -/
def split_bbs (fidx : String) (bbs : List WBasicBlock) (edges : List WEdge) :
    List WBasicBlock × List WEdge :=
  let r := splitGo fidx (sumInstr bbs + bbs.length + 1) bbs edges 0
  (r.1.mergeSort (fun a b => a.start_offset ≤ b.start_offset), r.2)

/-- Input well-formedness for split_bbs, as established by the raw CFG
builder: every block is named by the naming scheme from its start offset,
is non-empty, starts at its first instruction's offset, and no instruction
offset repeats anywhere in the function. -/
def SplitInv (fidx : String) (bbs : List WBasicBlock) : Prop :=
  (∀ b ∈ bbs, b.name = mkBlockName fidx b.start_offset) ∧
  (∀ b ∈ bbs, b.instructions ≠ []) ∧
  (∀ b ∈ bbs, b.start_offset = (b.instructions.headD default).offset) ∧
  ((bbs.flatMap (fun b => b.instructions)).map (fun x => x.offset)).Nodup

/-- Instructions of the split_bbs witness block: a call followed by one more
instruction, forcing one split. -/
def insW6a : Instruction := ⟨"call", 0, 1, 0⟩

/-- Second instruction of the split_bbs witness block. -/
def insW6b : Instruction := ⟨"i32.add", 2, 3, 1⟩

/-- Input block of the split_bbs witness. -/
def bbW6 : WBasicBlock :=
  ⟨mkBlockName "1" 0, 0, 3, insW6a, insW6b, [insW6a, insW6b]⟩

/-- Input edge of the split_bbs witness, leaving the block that gets split. -/
def edgeW6 : WEdge := ⟨mkBlockName "1" 0, "block_1_ff", "conditional_true"⟩

/-! Claim C10: fd_read on a drained descriptor. -/

/-- C10: if fd_read is invoked on an open descriptor whose content is an empty
byte string or a symbolic bitvector narrower than 8 bits, it writes 0 (4 bytes)
to the read-count address, pushes the success value 0, performs no other memory
write, and leaves every file-system record (and the constraints) unchanged. -/
theorem fd_read_drained (s : VMState) (nbra fd : Int)
    (niovsE iovsE : Expr) (rest : List Expr) (r : FileRec) (ds : DataSection)
    (hstk : s.symbolic_stack = .bv nbra 32 :: niovsE :: iovsE :: .bv fd 32 :: rest)
    (hfd : lookupFd s.file_sys fd = some r)
    (hopen : r.status = true)
    (hdr : r.content.isDrained = true) :
    wasiEmul "fd_read" s "i32 i32 i32 i32" "i32" ds = .ok
      { s with symbolic_stack := .bv 0 32 :: rest,
               symbolic_memory := s.symbolic_memory ++ [⟨nbra, .bv 0 32, 4⟩] } := by
  simp [wasiEmul, extractParams, numParams, hstk, Expr.asInt, hfd, hopen, hdr,
    storeN, Except.bind, bind]

theorem fd_read_drained_witness :
    wasiEmul "fd_read" stW10 "i32 i32 i32 i32" "i32" [] = .ok
      { stW10 with symbolic_stack := [.bv 0 32],
                   symbolic_memory := [⟨300, .bv 0 32, 4⟩] } :=
  fd_read_drained stW10 300 0 (.bv 1 32) (.bv 400 32) []
    ⟨"stdin", true, "r", .bytes []⟩ [] rfl rfl rfl rfl

/-! Claim C2: a call to an import function whose name matches no handler. -/

/-- C2: evaluation of the code at the failing input. For an import whose
module+field name matches none of the modelled host functions, the final else
branch of WASIImportFunction.emul (wasi.py:403-407) logs errors and calls
exit(), aborting the whole process; nothing is pushed and the generic
push-a-fresh-symbol fallback (wasi.py:409-413) is unreachable. -/
theorem unknown_import_aborts :
    wasiEmul "clock_time_get" ⟨[.bv 0 32, .bv 0 32], [], [], [], []⟩
      "i32 i64 i32" "i32" [] = .error "exit: unknown import function" := rfl

/-! Claim C3: proc_exit. -/

/-- C3: emulating proc_exit(code) appends the constraint proc_exit == code to
the state's constraint list (and touches nothing else); the state is treated
as terminal and, for a concrete code k, any solved model of the resulting
constraints reports the status line "Exit with status code k"
(terminal marking and reporting are modelled from the spec, see
procExitReport). -/
theorem proc_exit_constraint_and_status (s : VMState) (rv : Expr)
    (rest : List Expr) (ds : DataSection)
    (hstk : s.symbolic_stack = rv :: rest) :
    wasiEmul "proc_exit" s "i32" "" ds = .ok
      { s with symbolic_stack := rest,
               constraints := s.constraints ++ [.expr (.eq (.var "proc_exit" 32) rv)] } ∧
    (∀ (sigma : String → Int) (k : Int), rv = .bv k 32 → 0 ≤ k → k < 2 ^ 32 →
      satisfiesAll sigma (s.constraints ++ [.expr (.eq (.var "proc_exit" 32) rv)]) = true →
      procExitReport sigma = ⟨true, "Exit with status code " ++ toString k⟩) := by
  constructor
  · simp [wasiEmul, extractParams, numParams, hstk, Except.bind, bind]
  · intro sigma k hk h0 hlt hsat
    subst hk
    simp only [satisfiesAll, List.all_append, Bool.and_eq_true, List.all_cons,
      List.all_nil, Bool.and_true] at hsat
    have h2 := hsat.2
    simp only [satisfiesCon, Expr.evalI] at h2
    by_cases hc : (sigma "proc_exit") % (2 ^ 32) = k % (2 ^ 32)
    · simp only [procExitReport, Expr.evalI, hc, ReportRecord.mk.injEq, true_and]
      rw [Int.emod_eq_of_lt h0 hlt]
    · rw [if_neg hc] at h2
      simp at h2

theorem proc_exit_constraint_and_status_witness :
    wasiEmul "proc_exit" stW3 "i32" "" [] = .ok
      { stW3 with symbolic_stack := [],
                  constraints := [.expr (.eq (.var "proc_exit" 32) (.bv 1 32))] } ∧
    procExitReport sigW3 = ⟨true, "Exit with status code " ++ toString (1 : Int)⟩ := by
  have h := proc_exit_constraint_and_status stW3 (.bv 1 32) [] [] rfl
  exact ⟨h.1, h.2 sigW3 1 rfl (by decide) (by decide) (by decide)⟩

/-! Claim C7: fd_prestat_get / fd_prestat_dir_name. -/

/-- C7: fd_prestat_get pushes errno 8 (BADF) for every fd >= 5; for the
modelled preopened-directory descriptors (3 and 4) it writes a directory
prestat at the given address — preopen type 0 in the first of 4 bytes and the
4-byte path length 5 at offset 4 — and pushes success 0; and
fd_prestat_dir_name copies the modelled path 'a.txt' (as a little-endian
integer over the requested number of bytes) into the buffer and pushes 0. -/
theorem fd_prestat_model :
    (∀ (s : VMState) (addrE : Expr) (fd : Int) (rest : List Expr) (ds : DataSection),
      s.symbolic_stack = addrE :: .bv fd 32 :: rest → 5 ≤ fd →
      wasiEmul "fd_prestat_get" s "i32 i32" "i32" ds =
        .ok { s with symbolic_stack := .bv 8 32 :: rest }) ∧
    (∀ (s : VMState) (addr fd : Int) (rest : List Expr) (ds : DataSection),
      s.symbolic_stack = .bv addr 32 :: .bv fd 32 :: rest → fd = 3 ∨ fd = 4 →
      wasiEmul "fd_prestat_get" s "i32 i32" "i32" ds =
        .ok { s with symbolic_stack := .bv 0 32 :: rest, symbolic_memory := s.symbolic_memory ++ [⟨addr, .bv 0 32, 4⟩, ⟨addr + 4, .bv 5 32, 4⟩] }) ∧
    (∀ (s : VMState) (len addr : Int) (fdE : Expr) (rest : List Expr) (ds : DataSection),
      s.symbolic_stack = .bv len 32 :: .bv addr 32 :: fdE :: rest →
      wasiEmul "fd_prestat_dir_name" s "i32 i32 i32" "i32" ds =
        .ok { s with symbolic_stack := .bv 0 32 :: rest, symbolic_memory := s.symbolic_memory ++ [⟨addr, .bv (strToLittleEndianInt "a.txt") (8 * len.toNat), len.toNat⟩] }) := by
  refine ⟨?_, ?_, ?_⟩
  · intro s addrE fd rest ds hstk hge
    simp [wasiEmul, extractParams, numParams, hstk, Expr.asInt, Except.bind, bind, hge]
  · intro s addr fd rest ds hstk hfd
    have hlt : ¬ (5 ≤ fd) := by omega
    simp [wasiEmul, extractParams, numParams, hstk, Expr.asInt, Except.bind, bind,
      hlt, storeN]
  · intro s len addr fdE rest ds hstk
    simp [wasiEmul, extractParams, numParams, hstk, Expr.asInt, Except.bind, bind, storeN]

theorem fd_prestat_model_witness :
    wasiEmul "fd_prestat_get" stW7a "i32 i32" "i32" [] =
      .ok { stW7a with symbolic_stack := [.bv 8 32] } ∧
    wasiEmul "fd_prestat_get" stW7b "i32 i32" "i32" [] =
      .ok { stW7b with symbolic_stack := [.bv 0 32], symbolic_memory := [⟨200, .bv 0 32, 4⟩, ⟨200 + 4, .bv 5 32, 4⟩] } ∧
    wasiEmul "fd_prestat_dir_name" stW7c "i32 i32 i32" "i32" [] =
      .ok { stW7c with symbolic_stack := [.bv 0 32], symbolic_memory := [⟨300, .bv (strToLittleEndianInt "a.txt") (8 * (5 : Int).toNat), (5 : Int).toNat⟩] } := by
  obtain ⟨hA, hB, hC⟩ := fd_prestat_model
  exact ⟨hA stW7a (.bv 200 32) 7 [] [] rfl (by norm_num),
         hB stW7b 200 3 [] [] rfl (Or.inl rfl),
         hC stW7c 5 300 (.bv 3 32) [] [] rfl⟩

/-! Claim C9: fd_fdstat_get. -/

/-- Byte-level readback of the six stores fd_fdstat_get performs: every byte
offset j < 24 of the record reads back as 0 except the filetype byte at
offset 0, which reads 2, regardless of the prior memory contents. -/
theorem lookupByte_fdstat_six (mem : List StoreEntry) (addr : Int) (j : Nat)
    (hj : j < 24) :
    lookupByte (mem ++
      [⟨addr, .bv 2 8, 1⟩, ⟨addr + 1, .bv 0 8, 1⟩, ⟨addr + 2, .bv 0 16, 2⟩,
       ⟨addr + 4, .bv 0 32, 4⟩, ⟨addr + 8, .bv 0 64, 8⟩, ⟨addr + 16, .bv 0 64, 8⟩])
      (addr + j) = some (if j = 0 then 2 else 0) := by
  unfold lookupByte
  rw [List.reverse_append]
  have hrev : ([⟨addr, .bv 2 8, 1⟩, ⟨addr + 1, .bv 0 8, 1⟩, ⟨addr + 2, .bv 0 16, 2⟩,
       ⟨addr + 4, .bv 0 32, 4⟩, ⟨addr + 8, .bv 0 64, 8⟩,
       ⟨addr + 16, .bv 0 64, 8⟩] : List StoreEntry).reverse =
      [⟨addr + 16, .bv 0 64, 8⟩, ⟨addr + 8, .bv 0 64, 8⟩, ⟨addr + 4, .bv 0 32, 4⟩,
       ⟨addr + 2, .bv 0 16, 2⟩, ⟨addr + 1, .bv 0 8, 1⟩, ⟨addr, .bv 2 8, 1⟩] := rfl
  rw [hrev]
  simp only [List.cons_append, List.nil_append]
  by_cases h16 : 16 ≤ j
  · rw [List.find?_cons_of_pos _ (by simp <;> omega)]
    rw [if_neg (by omega)]
    simp [byteOfEntry]
  · rw [List.find?_cons_of_neg _ (by simp <;> omega)]
    by_cases h8 : 8 ≤ j
    · rw [List.find?_cons_of_pos _ (by simp <;> omega)]
      rw [if_neg (by omega)]
      simp [byteOfEntry]
    · rw [List.find?_cons_of_neg _ (by simp <;> omega)]
      by_cases h4 : 4 ≤ j
      · rw [List.find?_cons_of_pos _ (by simp <;> omega)]
        rw [if_neg (by omega)]
        simp [byteOfEntry]
      · rw [List.find?_cons_of_neg _ (by simp <;> omega)]
        by_cases h2 : 2 ≤ j
        · rw [List.find?_cons_of_pos _ (by simp <;> omega)]
          rw [if_neg (by omega)]
          simp [byteOfEntry]
        · rw [List.find?_cons_of_neg _ (by simp <;> omega)]
          by_cases h1 : 1 ≤ j
          · rw [List.find?_cons_of_pos _ (by simp <;> omega)]
            rw [if_neg (by omega)]
            simp [byteOfEntry]
          · have hj0 : j = 0 := by omega
            subst hj0
            rw [List.find?_cons_of_neg _ (by simp <;> omega)]
            rw [List.find?_cons_of_pos _ (by simp <;> omega)]
            simp [byteOfEntry]

/-- C9: fd_fdstat_get writes a minimal 24-byte fdstat record at the given
address — filetype byte 2 at offset 0, zero flags at offset 2 (2 bytes), zero
rights at offsets 8 and 16 (8 bytes each), zero padding in between — and
pushes the success value 0. -/
theorem fd_fdstat_get_minimal_record (s : VMState) (addr : Int) (fdE : Expr)
    (rest : List Expr) (ds : DataSection)
    (hstk : s.symbolic_stack = .bv addr 32 :: fdE :: rest) :
    ∃ s', wasiEmul "fd_fdstat_get" s "i32 i32" "i32" ds = .ok s' ∧
      s'.symbolic_stack = .bv 0 32 :: rest ∧
      s'.constraints = s.constraints ∧ s'.file_sys = s.file_sys ∧
      s'.symbolic_memory = s.symbolic_memory ++ [⟨addr, .bv 2 8, 1⟩, ⟨addr + 1, .bv 0 8, 1⟩, ⟨addr + 2, .bv 0 16, 2⟩, ⟨addr + 4, .bv 0 32, 4⟩, ⟨addr + 8, .bv 0 64, 8⟩, ⟨addr + 16, .bv 0 64, 8⟩] ∧
      ∀ j : Nat, j < 24 →
        lookupByte s'.symbolic_memory (addr + j) = some (if j = 0 then 2 else 0) := by
  refine ⟨{ s with symbolic_stack := .bv 0 32 :: rest, symbolic_memory := s.symbolic_memory ++ [⟨addr, .bv 2 8, 1⟩, ⟨addr + 1, .bv 0 8, 1⟩, ⟨addr + 2, .bv 0 16, 2⟩, ⟨addr + 4, .bv 0 32, 4⟩, ⟨addr + 8, .bv 0 64, 8⟩, ⟨addr + 16, .bv 0 64, 8⟩] }, ?_, rfl, rfl, rfl, rfl, ?_⟩
  · simp [wasiEmul, extractParams, numParams, hstk, Expr.asInt, Except.bind, bind, storeN]
  · intro j hj
    exact lookupByte_fdstat_six s.symbolic_memory addr j hj

theorem fd_fdstat_get_minimal_record_witness :
    ∃ s', wasiEmul "fd_fdstat_get" stW9 "i32 i32" "i32" [] = .ok s' ∧
      s'.symbolic_stack = .bv 0 32 :: ([] : List Expr) ∧
      s'.constraints = stW9.constraints ∧ s'.file_sys = stW9.file_sys ∧
      s'.symbolic_memory = stW9.symbolic_memory ++ [⟨100, .bv 2 8, 1⟩, ⟨100 + 1, .bv 0 8, 1⟩, ⟨100 + 2, .bv 0 16, 2⟩, ⟨100 + 4, .bv 0 32, 4⟩, ⟨100 + 8, .bv 0 64, 8⟩, ⟨100 + 16, .bv 0 64, 8⟩] ∧
      ∀ j : Nat, j < 24 →
        lookupByte s'.symbolic_memory (100 + j) = some (if j = 0 then 2 else 0) :=
  fd_fdstat_get_minimal_record stW9 100 (.bv 3 32) [] [] rfl

/-! Claim C1: constraint monotonicity of emulate_one_instruction. -/

/-- If every constraint entry is a BoolRef, the cleanup loop removes nothing. -/
theorem pyFilterGo_allBool (fuel : Nat) :
    ∀ (l : List PyCon) (i : Nat), (∀ c ∈ l, c.isBoolRef = true) →
      pyFilterGo fuel l i = l := by
  induction fuel with
  | zero => intro l i hb; rfl
  | succ fuel ih =>
    intro l i hb
    rw [pyFilterGo]
    cases hm : l.get? i with
    | none => rfl
    | some c =>
      have hcb : c.isBoolRef = true := hb c (List.get?_mem hm)
      simp only [hcb, if_true]
      exact ih l (i + 1) hb

/-- C1 counterexample: for a state whose constraint list holds a non-BoolRef
entry (the Python bool True), emulating one instruction with a spec-conforming
Constant handler produces a successor whose constraint list does not extend
the predecessor's: the cleanup loop of emulator.py:304-306 deleted the entry. -/
theorem emulate_one_instruction_constraints_cx :
    emulateOneInstruction (constantHandler 1 32) stC1 =
      [{ stC1 with symbolic_stack := [.bv 1 32], constraints := [] }] ∧
    ¬ ([PyCon.pyBool true] <+: ([] : List PyCon)) := by
  constructor
  · rfl
  · decide

/-- C1 amended: for every state whose constraint list contains only BoolRef
entries, and every handler meeting the spec's contract that successors extend
the constraint list, each direct successor produced by
emulate_one_instruction has the predecessor's constraint list as a prefix (in
general the successor extends the cleaned-up list instead). -/
theorem emulate_one_instruction_extends_boolref_constraints
    (handler : VMState → List VMState)
    (hmono : ∀ t, ∀ t' ∈ handler t, t.constraints <+: t'.constraints)
    (s : VMState) (hb : ∀ c ∈ s.constraints, c.isBoolRef = true) :
    ∀ s' ∈ emulateOneInstruction handler s, s.constraints <+: s'.constraints := by
  intro s' hs'
  have hfix : filterNonBoolConstraints s = s := by
    show { s with constraints := pyFilterLoop s.constraints 0 } = s
    rw [pyFilterLoop, pyFilterGo_allBool _ _ _ hb]
  rw [emulateOneInstruction, hfix] at hs'
  exact hmono s s' hs'

/-- constantHandler satisfies the spec's constraint-extension contract. -/
theorem constantHandler_extends (v : Int) (w : Nat) :
    ∀ t, ∀ t' ∈ constantHandler v w t, t.constraints <+: t'.constraints := by
  intro t t' ht'
  simp only [constantHandler, List.mem_singleton] at ht'
  subst ht'
  exact List.prefix_rfl

theorem emulate_one_instruction_extends_boolref_constraints_witness :
    stW1.constraints <+:
      ((emulateOneInstruction (constantHandler 2 32) stW1).headD stW1).constraints := by
  have h := emulate_one_instruction_extends_boolref_constraints
    (constantHandler 2 32) (constantHandler_extends 2 32) stW1
    (by intro c hc; simp [stW1] at hc; subst hc; rfl)
  exact h ((emulateOneInstruction (constantHandler 2 32) stW1).headD stW1) (by decide)

/-! Claim C4: args_sizes_get. -/

/-- Evaluation of the argc chain written by args_sizes_get, under any
assignment in which no symbolic argument of the list evaluates to zero. -/
theorem evalI_iterateSymArgs_of_nonzero (sigma : String → Int) :
    ∀ (l : List Arg) (total : Nat),
      (∀ a ∈ l, ∀ n w, a = Arg.sym n w → (sigma n) % (2 ^ w) ≠ 0) →
      (total : Int) < 2 ^ 32 →
      Expr.evalI sigma (iterateSymArgs total l) = total := by
  intro l
  induction l with
  | nil =>
    intro total h hlt
    simp only [iterateSymArgs, Expr.evalI]
    exact Int.emod_eq_of_lt (by positivity) hlt
  | cons a rest ih =>
    intro total h hlt
    have hhead : Expr.evalI sigma (argEqZero a) = 0 := by
      cases a with
      | str s => rfl
      | sym n w =>
        have hnz := h (Arg.sym n w) (List.mem_cons_self _ _) n w rfl
        simp only [argEqZero, Expr.evalI, Int.zero_emod]
        rw [if_neg hnz]
    simp only [iterateSymArgs, Expr.evalI, andAll, List.map_cons, List.foldr_cons]
    have hno : ¬ ((if (Expr.evalI sigma (argEqZero a) ≠ 0 ∧ Expr.evalI sigma (List.foldr Expr.andB Expr.boolTrue (List.map argEqZero rest)) ≠ 0) then (1 : Int) else 0) ≠ 0) := by
      rw [if_neg (fun hc => hc.1 hhead)]
      simp
    rw [if_neg hno]
    exact ih total (fun a' ha' => h a' (List.mem_cons_of_mem _ ha')) hlt

/-- C4 counterexample: with argv = [concrete "p", symbolic 8-bit arg], the argc
expression that args_sizes_get stores at argc_addr evaluates, under the
assignment making the symbolic argument zero, to 1 rather than |argv| = 2: the
code discounts all-zero symbolic argument suffixes instead of always writing
the number of argv entries. -/
theorem args_sizes_get_cx :
    wasiEmul "args_sizes_get" stC4 "i32 i32" "i32" [] = .ok stC4res ∧
    stC4.args.length = 2 ∧
    Expr.evalI sigZero (iterateSymArgs stC4.args.length (stC4.args.drop 1)) = 1 ∧
    Expr.evalI sigZero (iterateSymArgs stC4.args.length (stC4.args.drop 1)) ≠
      (stC4.args.length : Int) := by
  refine ⟨rfl, rfl, by decide, by decide⟩

/-- C4 amended: args_sizes_get writes at argc_addr the guarded argc expression
produced by _iterate_sym_args — which evaluates to the number of argv entries
under every assignment in which no symbolic argument is zero, and in
particular always does so for all-concrete argv — writes at
arg_buf_size_addr the total byte size of argv (a string contributes its length
plus one NUL byte, a symbolic argument width/8 + 1), and pushes the success
value 0. -/
theorem args_sizes_get_amended (s : VMState) (bufAddr argcAddr : Int)
    (rest : List Expr) (ds : DataSection)
    (hstk : s.symbolic_stack = .bv bufAddr 32 :: .bv argcAddr 32 :: rest) :
    wasiEmul "args_sizes_get" s "i32 i32" "i32" ds = .ok
      { s with symbolic_stack := .bv 0 32 :: rest, symbolic_memory := s.symbolic_memory ++ [⟨argcAddr, iterateSymArgs s.args.length (s.args.drop 1), 4⟩, ⟨bufAddr, .bv (argvBufSize s.args) 32, 4⟩] } ∧
    (∀ sigma : String → Int,
      (∀ a ∈ s.args.drop 1, ∀ n w, a = Arg.sym n w → (sigma n) % (2 ^ w) ≠ 0) →
      (s.args.length : Int) < 2 ^ 32 →
      Expr.evalI sigma (iterateSymArgs s.args.length (s.args.drop 1)) = s.args.length) := by
  constructor
  · simp [wasiEmul, extractParams, numParams, hstk, Expr.asInt, Except.bind, bind, storeN]
  · intro sigma hnz hlt
    exact evalI_iterateSymArgs_of_nonzero sigma (s.args.drop 1) s.args.length hnz hlt

theorem args_sizes_get_amended_witness :
    (wasiEmul "args_sizes_get" stW4 "i32 i32" "i32" [] = .ok
      { stW4 with symbolic_stack := [.bv 0 32], symbolic_memory := [⟨8, iterateSymArgs stW4.args.length (stW4.args.drop 1), 4⟩, ⟨12, .bv (argvBufSize stW4.args) 32, 4⟩] }) ∧
    Expr.evalI (fun _ => 1) (iterateSymArgs stW4.args.length (stW4.args.drop 1)) = 2 := by
  have h := args_sizes_get_amended stW4 12 8 [] [] rfl
  refine ⟨h.1, ?_⟩
  have h2 := h.2 (fun _ => 1)
    (by intro a ha n w heq; simp [stW4] at ha; subst ha; simp at heq)
    (by norm_num [stW4])
  simpa [stW4] using h2

/-! Claim C5: global initialization. -/

/-- mapM characterization of the init_globals loop, generalized over the
starting index of enumerate. -/
theorem initGlobals_enumFrom (b : Bool) :
    ∀ (gl : List (String × Int)) (n : Nat),
      (∀ p ∈ gl, p.1 = "i32" ∨ p.1 = "i64") →
      ∃ res, (List.enumFrom n gl).mapM (initGlobalItem b) = .ok res ∧
        res.length = gl.length ∧
        ∀ i, i < gl.length →
          res.getD i (.bv 0 32) =
            (let p := gl.getD i ("", 0)
             if p.1 = "i32" then
               (if b then Expr.bv p.2 32
                else Expr.var ("global_" ++ toString (n + i) ++ "_i32") 32)
             else
               (if b then Expr.bv p.2 64
                else Expr.var ("global_" ++ toString (n + i) ++ "_i64") 64)) := by
  intro gl
  induction gl with
  | nil =>
    intro n hty
    exact ⟨[], rfl, rfl, by intro i hi; simp at hi⟩
  | cons hd tl ih =>
    intro n hty
    obtain ⟨res', hres', hlen', hget'⟩ := ih (n + 1) (fun p hp => hty p (List.mem_cons_of_mem _ hp))
    have hhd : initGlobalItem b (n, hd) = .ok
        (if hd.1 = "i32" then
           (if b then Expr.bv hd.2 32 else Expr.var ("global_" ++ toString n ++ "_i32") 32)
         else
           (if b then Expr.bv hd.2 64 else Expr.var ("global_" ++ toString n ++ "_i64") 64)) := by
      rcases hty hd (List.mem_cons_self _ _) with h32 | h64
      · simp [initGlobalItem, h32]
      · by_cases h32 : hd.1 = "i32"
        · simp [initGlobalItem, h32]
        · simp [initGlobalItem, h32, h64]
    refine ⟨(if hd.1 = "i32" then
           (if b then Expr.bv hd.2 32 else Expr.var ("global_" ++ toString n ++ "_i32") 32)
         else
           (if b then Expr.bv hd.2 64 else Expr.var ("global_" ++ toString n ++ "_i64") 64)) :: res', ?_, by simp [hlen'], ?_⟩
    · rw [List.enumFrom_cons, List.mapM_cons, hhd, hres']
      rfl
    · intro i hi
      cases i with
      | zero => simp
      | succ i =>
        have hi' : i < tl.length := by simpa using hi
        have := hget' i hi'
        simp only [List.getD_cons_succ]
        rw [this]
        have harith : n + 1 + i = n + (i + 1) := by omega
        rw [harith]

/-- C5: during state initialization every global of the module is materialized
as the concrete value from the module's global section when the entry function
is exported or the concrete-globals switch is set, and otherwise as a fresh
symbol of the declared bitvector sort (width 32 for i32, width 64 for i64);
any other declared global type aborts with UnsupportGlobalTypeError. -/
theorem init_state_globals_concrete_or_symbolic
    (gl : List (String × Int)) (exported : List String) (cg : Bool) (fn : String)
    (hty : ∀ p ∈ gl, p.1 = "i32" ∨ p.1 = "i64") :
    ∃ res, initStateGlobals exported cg fn gl = .ok res ∧
      res.length = gl.length ∧
      ∀ i, i < gl.length →
        res.getD i (.bv 0 32) =
          (let p := gl.getD i ("", 0)
           let conc := if cg then true else exported.contains fn
           if p.1 = "i32" then
             (if conc then Expr.bv p.2 32
              else Expr.var ("global_" ++ toString i ++ "_i32") 32)
           else
             (if conc then Expr.bv p.2 64
              else Expr.var ("global_" ++ toString i ++ "_i64") 64)) := by
  obtain ⟨res, hres, hlen, hget⟩ :=
    initGlobals_enumFrom (if cg then true else exported.contains fn) gl 0 hty
  refine ⟨res, ?_, hlen, ?_⟩
  · show initGlobals gl _ = _
    rw [initGlobals, List.enum]
    exact hres
  · intro i hi
    have := hget i hi
    simpa using this

theorem init_state_globals_concrete_or_symbolic_witness :
    ∃ res, initStateGlobals ["_start"] false "foo" glW5 = .ok res ∧
      res.length = glW5.length ∧
      ∀ i, i < glW5.length →
        res.getD i (.bv 0 32) =
          (let p := glW5.getD i ("", 0)
           let conc := if false then true else (["_start"] : List String).contains "foo"
           if p.1 = "i32" then
             (if conc then Expr.bv p.2 32
              else Expr.var ("global_" ++ toString i ++ "_i32") 32)
           else
             (if conc then Expr.bv p.2 64
              else Expr.var ("global_" ++ toString i ++ "_i64") 64)) :=
  init_state_globals_concrete_or_symbolic glW5 ["_start"] false "foo"
    (by intro p hp; simp [glW5] at hp; rcases hp with h | h <;> simp [h])

/-! Claim C8: coverage monotonicity. -/


theorem lookupA_replace_eq {α : Type} (k : String) (v : α) :
    ∀ l : List (String × α),
      lookupA (l.map (fun p => if p.1 = k then (k, v) else p)) k =
        (lookupA l k).map (fun _ => v) := by
  intro l
  induction l with
  | nil => rfl
  | cons hd tl ih =>
    by_cases h : hd.1 = k
    · simp [lookupA, h]
    · simp only [List.map_cons, lookupA, if_neg h]
      exact ih

theorem lookupA_replace_ne {α : Type} (k k' : String) (v : α) (hne : k' ≠ k) :
    ∀ l : List (String × α),
      lookupA (l.map (fun p => if p.1 = k then (k, v) else p)) k' = lookupA l k' := by
  intro l
  induction l with
  | nil => rfl
  | cons hd tl ih =>
    by_cases h : hd.1 = k
    · simp only [List.map_cons, if_pos h, lookupA]
      have hh : ¬ hd.1 = k' := by
        intro hc
        exact hne (by rw [← hc, h])
      rw [if_neg (fun hc => hne hc.symm), if_neg hh]
      exact ih
    · simp only [List.map_cons, if_neg h, lookupA]
      by_cases h3 : hd.1 = k'
      · rw [if_pos h3, if_pos h3]
      · rw [if_neg h3, if_neg h3]
        exact ih

theorem lookupA_append_single_eq {α : Type} (k : String) (v : α)
    (l : List (String × α)) (h : containsA l k = false) :
    lookupA (l ++ [(k, v)]) k = some v := by
  induction l with
  | nil => simp [lookupA]
  | cons hd tl ih =>
    simp only [containsA, lookupA] at h ⊢
    by_cases h1 : hd.1 = k
    · rw [if_pos h1] at h
      simp at h
    · rw [if_neg h1] at h ⊢
      exact ih h

theorem lookupA_append_single_ne {α : Type} (k k' : String) (v : α)
    (hne : k' ≠ k) (l : List (String × α)) :
    lookupA (l ++ [(k, v)]) k' = lookupA l k' := by
  induction l with
  | nil =>
    simp only [List.nil_append, lookupA]
    rw [if_neg (fun hc => hne hc.symm)]
  | cons hd tl ih =>
    simp only [List.cons_append, lookupA]
    by_cases h1 : hd.1 = k'
    · rw [if_pos h1, if_pos h1]
    · rw [if_neg h1, if_neg h1]
      exact ih

theorem lookupA_setA_self {α : Type} (l : List (String × α)) (k : String) (v : α) :
    lookupA (setA l k v) k = some v := by
  unfold setA
  by_cases h : containsA l k = true
  · rw [if_pos h, lookupA_replace_eq]
    simp only [containsA, Option.isSome_iff_exists] at h
    obtain ⟨w, hw⟩ := h
    rw [hw]
    rfl
  · rw [if_neg h]
    exact lookupA_append_single_eq k v l (by simpa using h)

theorem lookupA_setA_ne {α : Type} (l : List (String × α)) (k k' : String)
    (v : α) (hne : k' ≠ k) :
    lookupA (setA l k v) k' = lookupA l k' := by
  unfold setA
  by_cases h : containsA l k = true
  · rw [if_pos h]
    exact lookupA_replace_ne k k' v hne l
  · rw [if_neg h]
    exact lookupA_append_single_ne k k' v hne l

theorem containsA_setA {α : Type} (l : List (String × α)) (k k' : String) (v : α) :
    containsA (setA l k v) k' = (containsA l k' || decide (k' = k)) := by
  by_cases h : k' = k
  · subst h
    simp [containsA, lookupA_setA_self]
  · simp [containsA, lookupA_setA_ne l k k' v h, h]



theorem keys_replace {α : Type} (k : String) (v : α) (l : List (String × α)) :
    ((l.map (fun p => if p.1 = k then (k, v) else p)).map Prod.fst) = l.map Prod.fst := by
  induction l with
  | nil => rfl
  | cons hd tl ih =>
    by_cases h : hd.1 = k
    · simp only [List.map_cons, if_pos h, ih]
      rw [h]
    · simp only [List.map_cons, if_neg h, ih]

theorem keys_setA {α : Type} (l : List (String × α)) (k : String) (v : α) :
    ((setA l k v).map Prod.fst) =
      (if containsA l k then l.map Prod.fst else l.map Prod.fst ++ [k]) := by
  unfold setA
  by_cases h : containsA l k = true
  · rw [if_pos h, if_pos h, keys_replace]
  · rw [if_neg h, if_neg h]
    simp

theorem not_mem_keys_of_not_containsA {α : Type} (l : List (String × α))
    (k : String) (h : containsA l k = false) : k ∉ l.map Prod.fst := by
  induction l with
  | nil => simp
  | cons hd tl ih =>
    simp only [containsA, lookupA] at h
    by_cases h1 : hd.1 = k
    · rw [if_pos h1] at h
      simp at h
    · rw [if_neg h1] at h
      simp only [List.map_cons, List.mem_cons]
      rintro (hc | hc)
      · exact h1 hc.symm
      · exact ih h hc

theorem nodup_keys_setA {α : Type} (l : List (String × α)) (k : String) (v : α)
    (hn : (l.map Prod.fst).Nodup) : ((setA l k v).map Prod.fst).Nodup := by
  rw [keys_setA]
  by_cases h : containsA l k = true
  · rwa [if_pos h]
  · rw [if_neg h]
    have hnm := not_mem_keys_of_not_containsA l k (by simpa using h)
    simp [List.nodup_append, hn, hnm]

theorem no_key_replace_id {α : Type} (k : String) (v : α) :
    ∀ l : List (String × α), k ∉ l.map Prod.fst →
      l.map (fun p => if p.1 = k then (k, v) else p) = l := by
  intro l
  induction l with
  | nil => intro _; rfl
  | cons hd tl ih =>
    intro hmem
    simp only [List.map_cons, List.mem_cons] at hmem ⊢
    push_neg at hmem
    rw [if_neg (fun hc => hmem.1 hc.symm), ih hmem.2]

theorem sum_snd_replace {α : Type} (f : α → Nat) (k : String) (v : α) :
    ∀ l : List (String × α), (l.map Prod.fst).Nodup →
      ∀ cv, lookupA l k = some cv →
      ((l.map (fun p => if p.1 = k then (k, v) else p)).map (fun p => f p.2)).sum + f cv
        = (l.map (fun p => f p.2)).sum + f v := by
  intro l
  induction l with
  | nil => intro _ cv hcv; cases hcv
  | cons hd tl ih =>
    intro hn cv hcv
    simp only [lookupA] at hcv
    simp only [List.map_cons, List.nodup_cons] at hn
    by_cases h : hd.1 = k
    · rw [if_pos h] at hcv
      injection hcv with hcv
      subst hcv
      have htl : tl.map (fun p => if p.1 = k then (k, v) else p) = tl :=
        no_key_replace_id k v tl (by rw [← h]; exact hn.1)
      simp only [List.map_cons, if_pos h, htl]
      simp only [List.sum_cons]
      omega
    · rw [if_neg h] at hcv
      have := ih hn.2 cv hcv
      simp only [List.map_cons, if_neg h, List.sum_cons]
      omega

theorem sum_snd_setA_existing {α : Type} (f : α → Nat) (l : List (String × α))
    (k : String) (v cv : α) (hn : (l.map Prod.fst).Nodup)
    (hcv : lookupA l k = some cv) :
    ((setA l k v).map (fun p => f p.2)).sum + f cv
      = (l.map (fun p => f p.2)).sum + f v := by
  unfold setA
  rw [if_pos (by simp [containsA, hcv])]
  exact sum_snd_replace f k v l hn cv hcv

theorem sum_snd_setA_new {α : Type} (f : α → Nat) (l : List (String × α))
    (k : String) (v : α) (h : containsA l k = false) :
    ((setA l k v).map (fun p => f p.2)).sum
      = (l.map (fun p => f p.2)).sum + f v := by
  unfold setA
  rw [if_neg (by simp [h])]
  simp

theorem count_true_mono :
    ∀ (a b : List Bool), a.length = b.length →
      (∀ j, a.getD j false = true → b.getD j false = true) →
      a.count true ≤ b.count true := by
  intro a
  induction a with
  | nil => intro b _ _; simp
  | cons a0 atl ih =>
    intro b hlen hmono
    cases b with
    | nil => simp at hlen
    | cons b0 btl =>
      have htail : atl.count true ≤ btl.count true := by
        refine ih btl (by simpa using hlen) ?_
        intro j hj
        exact hmono (j + 1) hj
      by_cases h0 : a0 = true
      · have hb0 : b0 = true := hmono 0 (by simpa using h0)
        subst h0; subst hb0
        simp only [List.count_cons, if_pos rfl]
        omega
      · have h0' : a0 = false := by cases a0 <;> simp_all
        subst h0'
        simp only [List.count_cons]
        cases b0 <;> simp <;> omega



theorem bitmapMono_refl (cs : CoverageState) : BitmapMono cs cs :=
  fun f bm hf => ⟨bm, hf, rfl, fun _ hj => hj⟩

theorem bitmapMono_trans {a b c : CoverageState} (h1 : BitmapMono a b)
    (h2 : BitmapMono b c) : BitmapMono a c := by
  intro f bm hf
  obtain ⟨bm1, ha, hlen1, hm1⟩ := h1 f bm hf
  obtain ⟨bm2, hb, hlen2, hm2⟩ := h2 f bm1 ha
  exact ⟨bm2, hb, by omega, fun j hj => hm2 j (hm1 j hj)⟩

theorem getD_true_lt (l : List Bool) (j : Nat) (h : l.getD j false = true) :
    j < l.length := by
  by_contra hc
  rw [List.getD_eq_default _ _ (by omega)] at h
  cases h

theorem getD_set_self_true (l : List Bool) (j : Nat) (h : j < l.length) :
    (l.set j true).getD j false = true := by
  induction l generalizing j with
  | nil => simp at h
  | cons hd tl ih =>
    cases j with
    | zero => rfl
    | succ j => exact ih j (by simpa using h)

theorem getD_set_ne (l : List Bool) (j j' : Nat) (v : Bool) (h : j' ≠ j) :
    (l.set j v).getD j' false = l.getD j' false := by
  induction l generalizing j j' with
  | nil => rfl
  | cons hd tl ih =>
    cases j with
    | zero =>
      cases j' with
      | zero => exact absurd rfl h
      | succ j' => rfl
    | succ j =>
      cases j' with
      | zero => rfl
      | succ j' => exact ih j j' (by omega)

theorem getD_map_true (l : List Bool) (j : Nat) (h : j < l.length) :
    (l.map (fun _ => true)).getD j false = true := by
  induction l generalizing j with
  | nil => simp at h
  | cons hd tl ih =>
    cases j with
    | zero => rfl
    | succ j => exact ih j (by simpa using h)

theorem initCoverageBitmap_props (concerned : List (String × Nat))
    (cs : CoverageState) (f : String) (hwf : CovWF cs) :
    CovWF (initCoverageBitmap concerned cs f) ∧
    BitmapMono cs (initCoverageBitmap concerned cs f) ∧
    globalCount cs = globalCount (initCoverageBitmap concerned cs f) ∧
    containsA (initCoverageBitmap concerned cs f).bitmap f = true := by
  obtain ⟨hn1, hn2, hc, hcons⟩ := hwf
  unfold initCoverageBitmap
  by_cases h : containsA cs.bitmap f = true
  · rw [if_pos h]
    exact ⟨⟨hn1, hn2, hc, hcons⟩, bitmapMono_refl cs, rfl, h⟩
  · rw [if_neg h]
    have hb : containsA cs.bitmap f = false := by simpa using h
    have hcov : containsA cs.coverage f = false := by rw [← hc]; exact hb
    set n := (lookupA concerned f).getD 0 with hn
    refine ⟨⟨?_, ?_, ?_, ?_⟩, ?_, ?_, ?_⟩
    · exact nodup_keys_setA _ _ _ hn1
    · exact nodup_keys_setA _ _ _ hn2
    · intro g
      simp only [containsA_setA]
      rw [show containsA cs.bitmap g = containsA cs.coverage g from hc g]
    · intro g bm cv h1 h2
      by_cases hg : g = f
      · subst hg
        rw [lookupA_setA_self] at h1 h2
        injection h1 with h1; injection h2 with h2
        subst h1; subst h2
        simp [List.count_replicate]
      · rw [lookupA_setA_ne _ _ _ _ hg] at h1 h2
        exact hcons g bm cv h1 h2
    · intro g bm hg
      have hgf : g ≠ f := by
        intro hc2
        subst hc2
        have hfalse : (lookupA cs.bitmap g).isSome = false := hb
        rw [hg] at hfalse
        cases hfalse
      refine ⟨bm, ?_, rfl, fun _ hj => hj⟩
      simpa [lookupA_setA_ne _ _ _ _ hgf] using hg
    · show globalCount cs = globalCount ⟨_, setA cs.coverage f (0, n)⟩
      unfold globalCount
      rw [sum_snd_setA_new Prod.fst cs.coverage f (0, n) hcov]
      simp
    · simp [containsA_setA]



theorem coverUpdate_props (cs : CoverageState) (f : String) (bm bm2 : List Bool)
    (hwf : CovWF cs)
    (hlook : lookupA cs.bitmap f = some bm)
    (hlen : bm2.length = bm.length)
    (hmono : ∀ j, bm.getD j false = true → bm2.getD j false = true) :
    CovWF ⟨setA cs.bitmap f bm2,
           setA cs.coverage f (bm2.count true, ((lookupA cs.coverage f).getD (0, 0)).2)⟩ ∧
    BitmapMono cs ⟨setA cs.bitmap f bm2,
           setA cs.coverage f (bm2.count true, ((lookupA cs.coverage f).getD (0, 0)).2)⟩ ∧
    globalCount cs ≤ globalCount ⟨setA cs.bitmap f bm2,
           setA cs.coverage f (bm2.count true, ((lookupA cs.coverage f).getD (0, 0)).2)⟩ := by
  obtain ⟨hn1, hn2, hc, hcons⟩ := hwf
  have hcontb : containsA cs.bitmap f = true := by simp [containsA, hlook]
  have hcontc : containsA cs.coverage f = true := by rw [← hc]; exact hcontb
  obtain ⟨cv, hcv⟩ : ∃ cv, lookupA cs.coverage f = some cv := by
    simpa [containsA, Option.isSome_iff_exists] using hcontc
  have hcv1 : cv.1 = bm.count true := hcons f bm cv hlook hcv
  have hcnt : bm.count true ≤ bm2.count true :=
    count_true_mono bm bm2 hlen.symm hmono
  refine ⟨⟨?_, ?_, ?_, ?_⟩, ?_, ?_⟩
  · exact nodup_keys_setA _ _ _ hn1
  · exact nodup_keys_setA _ _ _ hn2
  · intro g
    simp only [containsA_setA]
    rw [show containsA cs.bitmap g = containsA cs.coverage g from hc g]
  · intro g bmg cvg h1 h2
    by_cases hg : g = f
    · subst hg
      rw [lookupA_setA_self] at h1 h2
      injection h1 with h1; injection h2 with h2
      subst h1; subst h2
      rfl
    · rw [lookupA_setA_ne _ _ _ _ hg] at h1 h2
      exact hcons g bmg cvg h1 h2
  · intro g bmg hg
    by_cases hgf : g = f
    · subst hgf
      rw [hlook] at hg
      injection hg with hg
      subst hg
      exact ⟨bm2, by rw [lookupA_setA_self], hlen, hmono⟩
    · exact ⟨bmg, by rw [lookupA_setA_ne _ _ _ _ hgf]; exact hg, rfl, fun _ hj => hj⟩
  · show globalCount cs ≤ globalCount ⟨_, setA cs.coverage f (bm2.count true, _)⟩
    unfold globalCount
    have := sum_snd_setA_existing Prod.fst cs.coverage f
      (bm2.count true, ((lookupA cs.coverage f).getD (0, 0)).2) cv hn2 hcv
    simp only at this
    dsimp only
    omega

theorem coverOwnInstr_props (cs : CoverageState) (fname : String) (off : Nat)
    (cs' : CoverageState) (hwf : CovWF cs)
    (hok : coverOwnInstr cs fname off = .ok cs') :
    CovWF cs' ∧ BitmapMono cs cs' ∧ globalCount cs ≤ globalCount cs' := by
  unfold coverOwnInstr at hok
  cases hl : lookupA cs.bitmap fname with
  | none =>
    rw [hl] at hok
    simp only [Option.getD_none] at hok
    rw [if_neg (by simp)] at hok
    cases hok
  | some bm =>
    rw [hl] at hok
    simp only [Option.getD_some] at hok
    by_cases h2 : off < bm.length
    · rw [if_pos h2] at hok
      injection hok with hok
      subst hok
      refine coverUpdate_props cs fname bm (bm.set off true) hwf hl (by simp) ?_
      intro j hj
      by_cases hje : j = off
      · subst hje
        exact getD_set_self_true bm j h2
      · rw [getD_set_ne bm off j true hje]
        exact hj
    · rw [if_neg h2] at hok
      cases hok

theorem coverLibCallee_props (concerned : List (String × Nat))
    (cs : CoverageState) (callee : String) (cs' : CoverageState)
    (hwf : CovWF cs) (hok : coverLibCallee concerned cs callee = .ok cs') :
    CovWF cs' ∧ BitmapMono cs cs' ∧ globalCount cs ≤ globalCount cs' := by
  unfold coverLibCallee at hok
  by_cases h : containsA concerned callee = false
  · rw [if_pos h] at hok
    cases hok
  · rw [if_neg h] at hok
    obtain ⟨hwf1, hmono1, hgc1, hcont1⟩ := initCoverageBitmap_props concerned cs callee hwf
    obtain ⟨bm, hlook⟩ : ∃ bm,
        lookupA (initCoverageBitmap concerned cs callee).bitmap callee = some bm := by
      simpa [containsA, Option.isSome_iff_exists] using hcont1
    simp only [] at hok
    rw [hlook] at hok
    simp only [Option.getD_some] at hok
    injection hok with hok
    subst hok
    have hprops := coverUpdate_props (initCoverageBitmap concerned cs callee) callee bm
      (bm.map (fun _ => true)) hwf1 hlook (by simp)
      (fun j hj => getD_map_true bm j (getD_true_lt bm j hj))
    exact ⟨hprops.1, bitmapMono_trans hmono1 hprops.2.1, by omega⟩

theorem foldlM_coverLibCallee (concerned : List (String × Nat)) :
    ∀ (l : List String) (cs cs' : CoverageState), CovWF cs →
      l.foldlM (coverLibCallee concerned) cs = .ok cs' →
      CovWF cs' ∧ BitmapMono cs cs' ∧ globalCount cs ≤ globalCount cs' := by
  intro l
  induction l with
  | nil =>
    intro cs cs' hwf hok
    injection hok with hok
    subst hok
    exact ⟨hwf, bitmapMono_refl cs, le_refl _⟩
  | cons hd tl ih =>
    intro cs cs' hwf hok
    rw [List.foldlM_cons] at hok
    cases hstep : coverLibCallee concerned cs hd with
    | error e => rw [hstep] at hok; cases hok
    | ok mid =>
      rw [hstep] at hok
      obtain ⟨hwfm, hmonom, hgcm⟩ := coverLibCallee_props concerned cs hd mid hwf hstep
      obtain ⟨hwf', hmono', hgc'⟩ := ih mid cs' hwfm hok
      exact ⟨hwf', bitmapMono_trans hmonom hmono', by omega⟩

/-- C8: one call to calculate_coverage preserves the coverage invariant, only
ever turns bitmap bits from false to true (never back), and never decreases
the global visited-instruction count. -/
theorem calculate_coverage_monotone (clib : List String)
    (cg : List (String × List String)) (concerned : List (String × Nat))
    (cs : CoverageState) (instr : Instruction) (fname : String)
    (cs' : CoverageState) (hwf : CovWF cs)
    (hok : calculateCoverage clib cg concerned cs instr fname = .ok cs') :
    CovWF cs' ∧ BitmapMono cs cs' ∧ globalCount cs ≤ globalCount cs' := by
  unfold calculateCoverage at hok
  by_cases h : containsA concerned fname = false
  · rw [if_pos h] at hok
    cases hok
  · rw [if_neg h] at hok
    obtain ⟨hwf1, hmono1, hgc1, _⟩ := initCoverageBitmap_props concerned cs fname hwf
    by_cases hlib : fname ∈ clib
    · rw [if_pos hlib] at hok
      obtain ⟨hwf', hmono', hgc'⟩ :=
        foldlM_coverLibCallee concerned (bfsVisited cg fname) _ cs' hwf1 hok
      exact ⟨hwf', bitmapMono_trans hmono1 hmono', by omega⟩
    · rw [if_neg hlib] at hok
      obtain ⟨hwf', hmono', hgc'⟩ :=
        coverOwnInstr_props _ fname instr.nature_offset cs' hwf1 hok
      exact ⟨hwf', bitmapMono_trans hmono1 hmono', by omega⟩

theorem calculate_coverage_monotone_witness :
    CovWF csW8res ∧ BitmapMono csW8 csW8res ∧ globalCount csW8 ≤ globalCount csW8res :=
  calculate_coverage_monotone [] [] [("main", 3)] csW8 ⟨"i32.add", 0, 0, 1⟩ "main" csW8res
    ⟨by simp [csW8], by simp [csW8], fun f => rfl,
     fun f bm cv h1 h2 => by simp [csW8, lookupA] at h1⟩
    rfl

end SeeWasm

namespace SeeWasm

theorem hexChar_inj_lt :
    ∀ a, a < 16 → ∀ b, b < 16 → hexChar a = hexChar b → a = b := by
  decide

theorem map_hexChar_inj :
    ∀ (l1 l2 : List Nat), (∀ d ∈ l1, d < 16) → (∀ d ∈ l2, d < 16) →
      l1.map hexChar = l2.map hexChar → l1 = l2 := by
  intro l1
  induction l1 with
  | nil =>
    intro l2 _ _ h
    cases l2 with
    | nil => rfl
    | cons x xs => simp at h
  | cons x xs ih =>
    intro l2 h1 h2 h
    cases l2 with
    | nil => simp at h
    | cons y ys =>
      simp only [List.map_cons, List.cons.injEq] at h
      have hx : x = y := hexChar_inj_lt x (h1 x (List.mem_cons_self _ _)) y
        (h2 y (List.mem_cons_self _ _)) h.1
      have hxs : xs = ys := ih ys (fun d hd => h1 d (List.mem_cons_of_mem _ hd))
        (fun d hd => h2 d (List.mem_cons_of_mem _ hd)) h.2
      rw [hx, hxs]

theorem hexStr_ne_hexStr_zero (b : Nat) (hb : b ≠ 0) : hexStr b ≠ "0" := by
  rw [hexStr, if_neg hb]
  intro hc
  have hdata : (Nat.digits 16 b).reverse.map hexChar = ['0'] := congrArg String.data hc
  have hlast := Nat.getLast_digit_ne_zero 16 hb
  cases hd : Nat.digits 16 b with
  | nil =>
    rw [Nat.digits_eq_nil_iff_eq_zero] at hd
    exact hb hd
  | cons d0 rest =>
    rw [hd] at hdata
    have hlen : rest.length + 1 = 1 := by
      have := congrArg List.length hdata
      simpa using this
    have hrest : rest = [] := List.length_eq_zero.mp (by omega)
    subst hrest
    simp only [List.reverse_cons, List.reverse_nil, List.nil_append, List.map_cons,
      List.map_nil, List.cons.injEq, and_true] at hdata
    have hd0lt : d0 < 16 :=
      Nat.digits_lt_base (by norm_num) (by rw [hd]; exact List.mem_cons_self _ _)
    have hd00 : d0 = 0 :=
      hexChar_inj_lt d0 hd0lt 0 (by norm_num)
        (hdata.trans (show hexChar 0 = '0' from rfl).symm)
    have hb0 : b = d0 := by
      have hof := Nat.ofDigits_digits 16 b
      rw [hd] at hof
      simpa [Nat.ofDigits] using hof.symm
    exact hb (by rw [hb0, hd00])

theorem hexStr_injective : Function.Injective hexStr := by
  intro a b hab
  by_cases ha : a = 0
  · subst ha
    by_cases hb : b = 0
    · omega
    · exact absurd (hab.symm.trans (by rw [hexStr, if_pos rfl]))
        (hexStr_ne_hexStr_zero b hb)
  · by_cases hb : b = 0
    · subst hb
      exact absurd (hab.trans (by rw [hexStr, if_pos rfl]))
        (hexStr_ne_hexStr_zero a ha)
    · rw [hexStr, if_neg ha, hexStr, if_neg hb] at hab
      have hdata : (Nat.digits 16 a).reverse.map hexChar =
          (Nat.digits 16 b).reverse.map hexChar := congrArg String.data hab
      have hda : ∀ d ∈ (Nat.digits 16 a).reverse, d < 16 := by
        intro d hd
        exact Nat.digits_lt_base (by norm_num) (List.mem_reverse.mp hd)
      have hdb : ∀ d ∈ (Nat.digits 16 b).reverse, d < 16 := by
        intro d hd
        exact Nat.digits_lt_base (by norm_num) (List.mem_reverse.mp hd)
      have hrev := map_hexChar_inj _ _ hda hdb hdata
      have hdig : Nat.digits 16 a = Nat.digits 16 b :=
        List.reverse_injective hrev
      have := congrArg (Nat.ofDigits 16) hdig
      rwa [Nat.ofDigits_digits, Nat.ofDigits_digits] at this

theorem mkBlockName_inj (fidx : String) (a b : Nat)
    (h : mkBlockName fidx a = mkBlockName fidx b) : a = b := by
  unfold mkBlockName at h
  have hdata := congrArg String.data h
  simp only [String.data_append] at hdata
  have := List.append_cancel_left hdata
  exact hexStr_injective (String.ext this)

theorem headD_mem (l : List Instruction) (h : l ≠ []) : l.headD default ∈ l := by
  cases l with
  | nil => exact absurd rfl h
  | cons x rest => exact List.mem_cons_self _ _

theorem heads_offsets_nodup (bbs : List WBasicBlock)
    (hne : ∀ b ∈ bbs, b.instructions ≠ [])
    (hoff : ((bbs.flatMap (fun b => b.instructions)).map (fun x => x.offset)).Nodup) :
    (bbs.map (fun b => (b.instructions.headD default).offset)).Nodup := by
  induction bbs with
  | nil => simp
  | cons b rest ih =>
    rw [List.flatMap_cons, List.map_append, List.nodup_append] at hoff
    obtain ⟨hb, hrest, hdisj⟩ := hoff
    rw [List.map_cons, List.nodup_cons]
    constructor
    · intro hmem
      rw [List.mem_map] at hmem
      obtain ⟨b2, hb2mem, hb2eq⟩ := hmem
      have h1 : (b.instructions.headD default).offset ∈
          b.instructions.map (fun x => x.offset) := by
        exact List.mem_map_of_mem _ (headD_mem _ (hne b (List.mem_cons_self _ _)))
      have h2 : (b2.instructions.headD default).offset ∈
          (rest.flatMap (fun b => b.instructions)).map (fun x => x.offset) := by
        refine List.mem_map_of_mem _ ?_
        rw [List.mem_flatMap]
        exact ⟨b2, hb2mem, headD_mem _ (hne b2 (List.mem_cons_of_mem _ hb2mem))⟩
      rw [hb2eq] at h2
      exact hdisj h1 h2
    · exact ih (fun b2 h2 => hne b2 (List.mem_cons_of_mem _ h2)) hrest

theorem names_nodup (fidx : String) (bbs : List WBasicBlock)
    (hinv : SplitInv fidx bbs) : (bbs.map (fun b => b.name)).Nodup := by
  obtain ⟨hname, hne, hstart, hoff⟩ := hinv
  have hh := heads_offsets_nodup bbs hne hoff
  have hcongr : bbs.map (fun b => b.name) =
      (bbs.map (fun b => (b.instructions.headD default).offset)).map
        (mkBlockName fidx) := by
    rw [List.map_map]
    exact List.map_congr_left (fun b hb => by
      rw [hname b hb, hstart b hb]
      rfl)
  rw [hcongr]
  exact List.Nodup.map (fun a b h => mkBlockName_inj fidx a b h) hh

theorem findSplitIdxAux_none (len : Nat) :
    ∀ (l : List Instruction) (i : Nat), findSplitIdxAux len l i = none →
      ∀ m, m < l.length → isCallIns (l.getD m default) = false ∨ i + m = len - 1 := by
  intro l
  induction l with
  | nil => intro i _ m hm; simp at hm
  | cons x rest ih =>
    intro i h m hm
    rw [findSplitIdxAux] at h
    by_cases hc : isCallIns x = true ∧ i ≠ len - 1
    · rw [if_pos hc] at h; cases h
    · rw [if_neg hc] at h
      cases m with
      | zero =>
        push_neg at hc
        by_cases hx : isCallIns x = true
        · exact Or.inr (by simpa using hc hx)
        · exact Or.inl (by simpa using hx)
      | succ m =>
        rcases ih (i + 1) h m (by simpa using hm) with h1 | h1
        · exact Or.inl h1
        · exact Or.inr (by omega)

theorem findSplitIdxAux_none_of (len : Nat) :
    ∀ (l : List Instruction) (i : Nat),
      (∀ m, m < l.length → isCallIns (l.getD m default) = false ∨ i + m = len - 1) →
      findSplitIdxAux len l i = none := by
  intro l
  induction l with
  | nil => intro i _; rfl
  | cons x rest ih =>
    intro i h
    rw [findSplitIdxAux]
    have h0 := h 0 (by simp)
    rw [if_neg ?_]
    · exact ih (i + 1) (fun m hm => by
        rcases h (m + 1) (by simpa using hm) with h1 | h1
        · exact Or.inl h1
        · exact Or.inr (by omega))
    · rintro ⟨hcall, hne⟩
      rcases h0 with h1 | h1
      · simp only [List.getD_cons_zero] at h1
        rw [hcall] at h1
        cases h1
      · exact hne (by omega)

theorem findSplitIdxAux_some (len : Nat) :
    ∀ (l : List Instruction) (i k : Nat), findSplitIdxAux len l i = some k →
      i ≤ k ∧ k - i < l.length ∧ isCallIns (l.getD (k - i) default) = true ∧
      k ≠ len - 1 ∧
      (∀ m, m < k - i → isCallIns (l.getD m default) = false ∨ i + m = len - 1) := by
  intro l
  induction l with
  | nil => intro i k h; cases h
  | cons x rest ih =>
    intro i k h
    rw [findSplitIdxAux] at h
    by_cases hc : isCallIns x = true ∧ i ≠ len - 1
    · rw [if_pos hc] at h
      injection h with h
      subst h
      refine ⟨le_refl _, by simp, by simpa using hc.1, hc.2, ?_⟩
      intro m hm
      omega
    · rw [if_neg hc] at h
      obtain ⟨h1, h2, h3, h4, h5⟩ := ih (i + 1) k h
      refine ⟨by omega, by simp; omega, ?_, h4, ?_⟩
      · have : k - i = (k - (i + 1)) + 1 := by omega
        rw [this]
        simpa using h3
      · intro m hm
        cases m with
        | zero =>
          push_neg at hc
          by_cases hx : isCallIns x = true
          · exact Or.inr (by simpa using hc hx)
          · exact Or.inl (by simpa using hx)
        | succ m =>
          rcases h5 m (by omega) with hh | hh
          · exact Or.inl (by simpa using hh)
          · exact Or.inr (by omega)

theorem findSplitIdx_none_interior (l : List Instruction)
    (h : findSplitIdx l = none) :
    ∀ m, m + 1 < l.length → isCallIns (l.getD m default) = false := by
  intro m hm
  rcases findSplitIdxAux_none l.length l 0 h m (by omega) with h1 | h1
  · exact h1
  · omega

theorem findSplitIdx_none_of_interior (l : List Instruction)
    (h : ∀ m, m + 1 < l.length → isCallIns (l.getD m default) = false) :
    findSplitIdx l = none := by
  apply findSplitIdxAux_none_of
  intro m hm
  by_cases h2 : m + 1 < l.length
  · exact Or.inl (h m h2)
  · exact Or.inr (by omega)

theorem findSplitIdx_some_facts (l : List Instruction) (k : Nat)
    (h : findSplitIdx l = some k) :
    k + 1 < l.length ∧ isCallIns (l.getD k default) = true ∧
    (∀ m, m < k → isCallIns (l.getD m default) = false) := by
  obtain ⟨h1, h2, h3, h4, h5⟩ := findSplitIdxAux_some l.length l 0 k h
  simp only [Nat.sub_zero] at h2 h3 h5
  refine ⟨by omega, h3, ?_⟩
  intro m hm
  rcases h5 m hm with hh | hh
  · exact hh
  · omega

theorem getD_take_of_lt (l : List Instruction) (n m : Nat) (h : m < n) :
    (l.take n).getD m default = l.getD m default := by
  rw [List.getD_eq_getD_get?, List.getD_eq_getD_get?, List.get?_take h]

theorem findSplitIdx_take_none (l : List Instruction) (k : Nat)
    (h : findSplitIdx l = some k) :
    findSplitIdx (l.take (k + 1)) = none := by
  obtain ⟨hlt, hcall, hmin⟩ := findSplitIdx_some_facts l k h
  apply findSplitIdx_none_of_interior
  intro m hm
  have hlen : (l.take (k + 1)).length = k + 1 := by
    rw [List.length_take]
    omega
  rw [hlen] at hm
  rw [getD_take_of_lt l (k + 1) m (by omega)]
  exact hmin m (by omega)

theorem headD_take (l : List Instruction) (n : Nat) (h : 1 ≤ n) :
    (l.take n).headD default = l.headD default := by
  cases l with
  | nil => simp
  | cons x rest =>
    cases n with
    | zero => omega
    | succ n => rfl

theorem mem_of_mem_set {α : Type} (l : List α) (i : Nat) (x b : α)
    (hb : b ∈ l.set i x) : b = x ∨ b ∈ l := by
  rw [List.mem_iff_get?] at hb
  obtain ⟨j, hj⟩ := hb
  rw [List.get?_set] at hj
  by_cases hij : i = j
  · rw [if_pos hij] at hj
    cases hl : l.get? j with
    | none => rw [hl] at hj; cases hj
    | some c =>
      rw [hl] at hj
      injection hj with hj
      exact Or.inl hj.symm
  · rw [if_neg hij] at hj
    exact Or.inr (List.mem_iff_get?.mpr ⟨j, hj⟩)

theorem getLastD_drop_of_ne_nil (l : List Instruction) (n : Nat) (h : l.drop n ≠ []) :
    (l.drop n).getLastD default = l.getLastD default := by
  conv_rhs => rw [← List.take_append_drop n l]
  rw [List.getLastD_eq_getLast?, List.getLastD_eq_getLast?,
    List.getLast?_append_of_ne_nil _ h]

theorem mem_set_of_ne_idx {α : Type} (l : List α) (i : Nat) (x b : α)
    (hb : b ∈ l) (hne : ∀ j, l.get? j = some b → j = i → False) : b ∈ l.set i x := by
  obtain ⟨j, hj⟩ := List.mem_iff_get?.mp hb
  have hji : j ≠ i := fun hc => hne j hj hc
  have hg : (l.set i x).get? j = some b := by
    rw [List.get?_set_ne _ _ (fun hc => hji hc.symm)]
    exact hj
  exact List.mem_iff_get?.mpr ⟨j, hg⟩

/-- SplitInv is preserved by one split step. -/
theorem splitInv_step (fidx : String) (bbs : List WBasicBlock) (i k : Nat)
    (bb : WBasicBlock) (hinv : SplitInv fidx bbs)
    (hget : bbs.get? i = some bb)
    (hsplit : findSplitIdx bb.instructions = some k) :
    SplitInv fidx
      ((bbs.set i (splitFirstPart bb k)) ++ [splitSecondPart fidx bb k]) := by
  obtain ⟨hname, hne, hstart, hoff⟩ := hinv
  have hbbmem : bb ∈ bbs := List.mem_iff_get?.mpr ⟨i, hget⟩
  obtain ⟨hklt, hkcall, hkmin⟩ := findSplitIdx_some_facts bb.instructions k hsplit
  have hsecond_ne : bb.instructions.drop (k + 1) ≠ [] := by
    intro hc
    rw [List.drop_eq_nil_iff_le] at hc
    omega
  have hfirst_ne : bb.instructions.take (k + 1) ≠ [] := by
    intro hc
    rcases List.take_eq_nil_iff.mp hc with h | h
    · omega
    · rw [h] at hklt
      simp at hklt
  have hilt : i < bbs.length := (List.get?_eq_some.mp hget).1
  refine ⟨?_, ?_, ?_, ?_⟩
  · intro b hb
    rcases List.mem_append.mp hb with hb1 | hb1
    · rcases mem_of_mem_set _ _ _ _ hb1 with hb2 | hb2
      · subst hb2
        exact hname bb hbbmem
      · exact hname b hb2
    · rw [List.mem_singleton.mp hb1]
      rfl
  · intro b hb
    rcases List.mem_append.mp hb with hb1 | hb1
    · rcases mem_of_mem_set _ _ _ _ hb1 with hb2 | hb2
      · subst hb2
        exact hfirst_ne
      · exact hne b hb2
    · rw [List.mem_singleton.mp hb1]
      exact hsecond_ne
  · intro b hb
    rcases List.mem_append.mp hb with hb1 | hb1
    · rcases mem_of_mem_set _ _ _ _ hb1 with hb2 | hb2
      · subst hb2
        show bb.start_offset = _
        rw [hstart bb hbbmem]
        rw [show (splitFirstPart bb k).instructions = bb.instructions.take (k + 1) from rfl]
        rw [headD_take _ _ (by omega)]
      · exact hstart b hb2
    · rw [List.mem_singleton.mp hb1]
      rfl
  · have hdrop : bbs.drop i = bb :: bbs.drop (i + 1) := by
      have h2 := List.drop_eq_getElem_cons hilt
      rw [h2]
      congr 1
      obtain ⟨h3, h4⟩ := List.get?_eq_some.mp hget
      rw [← h4]
      simp [List.get_eq_getElem]
    have hL : ((bbs.set i (splitFirstPart bb k)) ++ [splitSecondPart fidx bb k]).flatMap
          (fun b => b.instructions) =
        (bbs.take i).flatMap (fun b => b.instructions) ++
          (bb.instructions.take (k + 1) ++
            ((bbs.drop (i + 1)).flatMap (fun b => b.instructions) ++
              bb.instructions.drop (k + 1))) := by
      rw [List.flatMap_append, List.set_eq_take_append_cons_drop, if_pos hilt,
        List.flatMap_append, List.flatMap_cons]
      simp only [splitFirstPart, splitSecondPart, List.flatMap_cons, List.flatMap_nil,
        List.append_nil, List.append_assoc]
    have hR : bbs.flatMap (fun b => b.instructions) =
        (bbs.take i).flatMap (fun b => b.instructions) ++
          (bb.instructions.take (k + 1) ++
            (bb.instructions.drop (k + 1) ++
              (bbs.drop (i + 1)).flatMap (fun b => b.instructions))) := by
      conv_lhs => rw [← List.take_append_drop i bbs]
      rw [List.flatMap_append, hdrop, List.flatMap_cons]
      nth_rewrite 1 [← List.take_append_drop (k + 1) bb.instructions]
      simp only [List.append_assoc]
    have hperm : List.Perm
        (((bbs.set i (splitFirstPart bb k)) ++ [splitSecondPart fidx bb k]).flatMap
          (fun b => b.instructions)) (bbs.flatMap (fun b => b.instructions)) := by
      rw [hL, hR]
      exact List.Perm.append_left _ (List.Perm.append_left _ List.perm_append_comm)
    rw [(hperm.map (fun x => x.offset)).nodup_iff]
    exact hoff

end SeeWasm

namespace SeeWasm

theorem drop_set_of_lt {α : Type} (l : List α) (i n : Nat) (x : α) (h : i < n) :
    (l.set i x).drop n = l.drop n := by
  apply List.ext_get?
  intro m
  rw [List.get?_drop, List.get?_drop, List.get?_set_ne _ _ (by omega)]

theorem sumInstr_cons (b : WBasicBlock) (rest : List WBasicBlock) :
    sumInstr (b :: rest) = b.instructions.length + sumInstr rest := by
  simp [sumInstr]

theorem sumInstr_append (l1 l2 : List WBasicBlock) :
    sumInstr (l1 ++ l2) = sumInstr l1 + sumInstr l2 := by
  simp [sumInstr]

theorem splitGo_done_spec (bbs : List WBasicBlock) (edges : List WEdge)
    (hall : ∀ b ∈ bbs, findSplitIdx b.instructions = none) :
    (∀ b ∈ bbs, findSplitIdx b.instructions = none) ∧
    (∀ p e₀, edges.get? p = some e₀ → ∀ B ∈ bbs, B.name = e₀.node_from →
      ∃ B' ∈ bbs, edges.get? p = some ⟨B'.name, e₀.node_to, e₀.edgeType⟩ ∧
        B'.instructions.getLastD default = B.instructions.getLastD default) := by
  refine ⟨hall, ?_⟩
  intro p e₀ hp B hB hBname
  refine ⟨B, hB, ?_, rfl⟩
  have he : (⟨B.name, e₀.node_to, e₀.edgeType⟩ : WEdge) = e₀ := by
    cases e₀
    simp only at hBname ⊢
    rw [hBname]
  rw [he, hp]

theorem splitGo_spec (fidx : String) :
    ∀ (fuel : Nat) (bbs : List WBasicBlock) (edges : List WEdge) (i : Nat),
      SplitInv fidx bbs →
      (∀ j, j < i → ∀ b, bbs.get? j = some b → findSplitIdx b.instructions = none) →
      sumInstr (bbs.drop i) + (bbs.length - i) ≤ fuel →
      (∀ b ∈ (splitGo fidx fuel bbs edges i).1, findSplitIdx b.instructions = none) ∧
      (∀ p e₀, edges.get? p = some e₀ → ∀ B ∈ bbs, B.name = e₀.node_from →
        ∃ B' ∈ (splitGo fidx fuel bbs edges i).1,
          (splitGo fidx fuel bbs edges i).2.get? p =
            some ⟨B'.name, e₀.node_to, e₀.edgeType⟩ ∧
          B'.instructions.getLastD default = B.instructions.getLastD default) := by
  intro fuel
  induction fuel with
  | zero =>
    intro bbs edges i hinv hpre hfuel
    have hlen : bbs.length ≤ i := by
      by_contra hc
      push_neg at hc
      have h1 : 1 ≤ bbs.length - i := by omega
      omega
    have hall : ∀ b ∈ bbs, findSplitIdx b.instructions = none := by
      intro b hb
      obtain ⟨j, hj⟩ := List.mem_iff_get?.mp hb
      have hjlt : j < bbs.length := (List.get?_eq_some.mp hj).1
      exact hpre j (by omega) b hj
    exact splitGo_done_spec bbs edges hall
  | succ fuel ih =>
    intro bbs edges i hinv hpre hfuel
    cases hget : bbs.get? i with
    | none =>
      have hlen : bbs.length ≤ i := List.get?_eq_none.mp hget
      have hall : ∀ b ∈ bbs, findSplitIdx b.instructions = none := by
        intro b hb
        obtain ⟨j, hj⟩ := List.mem_iff_get?.mp hb
        have hjlt : j < bbs.length := (List.get?_eq_some.mp hj).1
        exact hpre j (by omega) b hj
      simp only [splitGo, hget]
      exact splitGo_done_spec bbs edges hall
    | some bb =>
      have hilt : i < bbs.length := (List.get?_eq_some.mp hget).1
      have hdrop : bbs.drop i = bb :: bbs.drop (i + 1) := by
        have h2 := List.drop_eq_getElem_cons hilt
        rw [h2]
        congr 1
        obtain ⟨h3, h4⟩ := List.get?_eq_some.mp hget
        rw [← h4]
        simp [List.get_eq_getElem]
      have hsum : sumInstr (bbs.drop i) =
          bb.instructions.length + sumInstr (bbs.drop (i + 1)) := by
        rw [hdrop, sumInstr_cons]
      cases hsp : findSplitIdx bb.instructions with
      | none =>
        simp only [splitGo, hget, hsp]
        have hpre2 : ∀ j, j < i + 1 → ∀ b, bbs.get? j = some b →
            findSplitIdx b.instructions = none := by
          intro j hj b hjb
          by_cases hji : j = i
          · subst hji
            rw [hget] at hjb
            injection hjb with hjb
            subst hjb
            exact hsp
          · exact hpre j (by omega) b hjb
        exact ih bbs edges (i + 1) hinv hpre2 (by omega)
      | some k =>
        obtain ⟨hklt, hkcall, hkmin⟩ := findSplitIdx_some_facts bb.instructions k hsp
        have hbbmem : bb ∈ bbs := List.mem_iff_get?.mpr ⟨i, hget⟩
        have hinv2 := splitInv_step fidx bbs i k bb hinv hget hsp
        have hnames := names_nodup fidx bbs hinv
        set first := splitFirstPart bb k with hfirstdef
        set second := splitSecondPart fidx bb k with hseconddef
        set bbs2 := (bbs.set i first) ++ [second] with hbbs2
        set edges3 := (edges.map (fun e =>
            if e.node_from = bb.name then { e with node_from := second.name } else e)) ++
          [⟨bb.name, second.name, "fallthrough"⟩] with hedges3
        have hgoal : splitGo fidx (fuel + 1) bbs edges i = splitGo fidx fuel bbs2 edges3 (i + 1) := by
          simp only [splitGo, hget, hsp]
        have hpre2 : ∀ j, j < i + 1 → ∀ b, bbs2.get? j = some b →
            findSplitIdx b.instructions = none := by
          intro j hj b hjb
          have hjlen : j < (bbs.set i first).length := by
            rw [List.length_set]
            omega
          rw [hbbs2, List.get?_append hjlen] at hjb
          by_cases hji : j = i
          · subst hji
            rw [List.get?_set, if_pos rfl, hget] at hjb
            simp only [Option.map_some] at hjb
            injection hjb with hjb
            subst hjb
            exact findSplitIdx_take_none bb.instructions k hsp
          · rw [List.get?_set_ne _ _ (fun hc => hji hc.symm)] at hjb
            exact hpre j (by omega) b hjb
        have hfuel2 : sumInstr (bbs2.drop (i + 1)) + (bbs2.length - (i + 1)) ≤ fuel := by
          have hlen2 : bbs2.length = bbs.length + 1 := by
            rw [hbbs2]
            simp [List.length_set]
          have hdrop2 : bbs2.drop (i + 1) = bbs.drop (i + 1) ++ [second] := by
            have h0 : i + 1 - (bbs.set i first).length = 0 := by
              rw [List.length_set]
              omega
            rw [hbbs2, List.drop_append_eq_append_drop, drop_set_of_lt _ _ _ _ (by omega), h0,
              List.drop_zero]
          have hslen : second.instructions.length = bb.instructions.length - (k + 1) := by
            rw [hseconddef]
            show (bb.instructions.drop (k + 1)).length = _
            simp
          rw [hdrop2, sumInstr_append, hlen2]
          have : sumInstr [second] = second.instructions.length := by simp [sumInstr]
          rw [this, hslen]
          omega
        rw [hgoal]
        obtain ⟨ihc1, ihc2⟩ := ih bbs2 edges3 (i + 1) hinv2 hpre2 hfuel2
        refine ⟨ihc1, ?_⟩
        intro p e₀ hp B hB hBname
        have hplt : p < edges.length := (List.get?_eq_some.mp hp).1
        have hmaplen : p < (edges.map (fun e =>
            if e.node_from = bb.name then { e with node_from := second.name } else e)).length := by
          simpa using hplt
        have hp3 : edges3.get? p = some (if e₀.node_from = bb.name
            then { e₀ with node_from := second.name } else e₀) := by
          rw [hedges3, List.get?_append hmaplen, List.get?_map, hp]
          rfl
        by_cases hcase : e₀.node_from = bb.name
        · have hBbb : B = bb :=
            List.inj_on_of_nodup_map hnames hB hbbmem (hBname.trans hcase)
          rw [if_pos hcase] at hp3
          have hsecmem : second ∈ bbs2 := by
            rw [hbbs2]
            exact List.mem_append_right _ (List.mem_singleton.mpr rfl)
          obtain ⟨B', hB'mem, hB'edge, hB'last⟩ :=
            ihc2 p ⟨second.name, e₀.node_to, e₀.edgeType⟩ (by rw [hp3])
              second hsecmem rfl
          refine ⟨B', hB'mem, ?_, ?_⟩
          · exact hB'edge
          · rw [hB'last, hBbb]
            rw [hseconddef]
            show (bb.instructions.drop (k + 1)).getLastD default = _
            apply getLastD_drop_of_ne_nil
            intro hc
            rw [List.drop_eq_nil_iff_le] at hc
            omega
        · rw [if_neg hcase] at hp3
          have hBmem2 : B ∈ bbs2 := by
            rw [hbbs2]
            apply List.mem_append_left
            apply mem_set_of_ne_idx _ _ _ _ hB
            intro j hj hji
            subst hji
            rw [hget] at hj
            injection hj with hj
            exact hcase (by rw [← hBname, hj])
          obtain ⟨B', hB'mem, hB'edge, hB'last⟩ := ihc2 p e₀ hp3 B hBmem2 hBname
          exact ⟨B', hB'mem, hB'edge, hB'last⟩

end SeeWasm

namespace SeeWasm

/-- C6: After CFG refinement (split_bbs), for every basic block of every
function, no instruction at a non-terminal position of the block's instruction
list has name call or call_indirect (those appear only as the last instruction
of a block), and every edge that originally left a block that was split
originates from the final split part: the edge at each original position now
leaves a refined block whose last instruction is the original block's last
instruction. -/
theorem split_bbs_refinement (fidx : String) (bbs : List WBasicBlock)
    (edges : List WEdge) (hinv : SplitInv fidx bbs) :
    (∀ b ∈ (split_bbs fidx bbs edges).1, ∀ j, j + 1 < b.instructions.length →
      isCallIns (b.instructions.getD j default) = false) ∧
    (∀ p e₀, edges.get? p = some e₀ → ∀ B ∈ bbs, B.name = e₀.node_from →
      ∃ B' ∈ (split_bbs fidx bbs edges).1,
        (split_bbs fidx bbs edges).2.get? p =
          some ⟨B'.name, e₀.node_to, e₀.edgeType⟩ ∧
        B'.instructions.getLastD default = B.instructions.getLastD default) := by
  have hmain := splitGo_spec fidx (sumInstr bbs + bbs.length + 1) bbs edges 0 hinv
    (fun j hj b _ => absurd hj (Nat.not_lt_zero j))
    (by rw [List.drop_zero]; omega)
  have h1 : (split_bbs fidx bbs edges).1 =
      ((splitGo fidx (sumInstr bbs + bbs.length + 1) bbs edges 0).1).mergeSort
        (fun a b => a.start_offset ≤ b.start_offset) := rfl
  have h2 : (split_bbs fidx bbs edges).2 =
      (splitGo fidx (sumInstr bbs + bbs.length + 1) bbs edges 0).2 := rfl
  constructor
  · intro b hb j hj
    rw [h1, List.mem_mergeSort] at hb
    exact findSplitIdx_none_interior b.instructions (hmain.1 b hb) j hj
  · intro p e₀ hp B hB hBname
    obtain ⟨B', hB'mem, hB'edge, hB'last⟩ := hmain.2 p e₀ hp B hB hBname
    refine ⟨B', ?_, ?_, hB'last⟩
    · rw [h1, List.mem_mergeSort]
      exact hB'mem
    · rw [h2]
      exact hB'edge

theorem split_bbs_refinement_witness :
    SplitInv "1" [bbW6] ∧
    ((∀ b ∈ (split_bbs "1" [bbW6] [edgeW6]).1, ∀ j, j + 1 < b.instructions.length →
       isCallIns (b.instructions.getD j default) = false) ∧
     (∀ p e₀, [edgeW6].get? p = some e₀ → ∀ B ∈ [bbW6], B.name = e₀.node_from →
       ∃ B' ∈ (split_bbs "1" [bbW6] [edgeW6]).1,
         (split_bbs "1" [bbW6] [edgeW6]).2.get? p =
           some ⟨B'.name, e₀.node_to, e₀.edgeType⟩ ∧
         B'.instructions.getLastD default = B.instructions.getLastD default)) :=
  ⟨by unfold SplitInv; decide, split_bbs_refinement "1" [bbW6] [edgeW6] (by unfold SplitInv; decide)⟩

end SeeWasm
